import Mathlib

/-!
# PalBaseIQ — verification of the core spatial model, pathing graph and optimizer

This file is a shallow embedding of the PalBaseIQ Go packages
(`pkg/types`, `pkg/pathing`, `pkg/optimizer`) in Lean 4, together with
theorems settling the specification claims about them.

Modelling conventions:
* Go `int` is modelled as `Int`.
* Go `float64` is modelled as exact rationals `ℚ`.  The two transcendental
  library functions the code uses, `math.Sqrt` and `math.Exp`, are threaded
  through as explicit function parameters `sqrt exp : ℚ → ℚ`; theorems
  assume exactly the properties of these functions that they need (for
  example `sqrt 1 = 1` or `0 ≤ sqrt q`), all of which hold for the real
  square root and exponential.
* Go maps are modelled as association lists.  The list order models the
  (randomized) iteration order of a Go map; operations whose result the
  code makes depend on that order therefore take it as an input.
* A Go method that mutates its receiver and returns an `error` is modelled
  as a function returning the new state paired with an `Option` error.
* `container/heap` is Go standard library code that is not part of this
  repository; the priority queue is modelled by its documented contract:
  `Pop` removes and returns a minimum element with respect to `Less`.
-/

namespace PalBaseIQ

/-- `types.Position`: a 3D integer coordinate. -/
structure Position where
  X : Int
  Y : Int
  Z : Int
deriving DecidableEq, Repr

/-- `types.Position.Distance`: Euclidean distance, `math.Sqrt` passed explicitly. -/
def Position.Distance (sqrt : ℚ → ℚ) (p other : Position) : ℚ :=
  sqrt (((p.X - other.X) * (p.X - other.X) +
         (p.Y - other.Y) * (p.Y - other.Y) +
         (p.Z - other.Z) * (p.Z - other.Z) : ℤ) : ℚ)

/-- `types.Position.ManhattanDistance`. -/
def Position.ManhattanDistance (p other : Position) : Int :=
  (p.X - other.X).natAbs + (p.Y - other.Y).natAbs + (p.Z - other.Z).natAbs

/-- `types.BoundingBox`: the dimensions of an item. -/
structure BoundingBox where
  Width : Int
  Height : Int
  Depth : Int
deriving DecidableEq, Repr

/-- `types.BoundingBox.Volume`. -/
def BoundingBox.Volume (bb : BoundingBox) : Int :=
  bb.Width * bb.Height * bb.Depth

/-- `types.ItemType` is a string type; the constants below follow the source. -/
abbrev ItemType := String

def ItemTypePalbox : ItemType := "palbox"
def ItemTypePalBed : ItemType := "pal_bed"
def ItemTypeFoodBox : ItemType := "food_box"
def ItemTypeFoodPlot : ItemType := "food_plot"
def ItemTypePowerGenerator : ItemType := "power_generator"
def ItemTypeAccumulator : ItemType := "accumulator"
def ItemTypeOuterWall : ItemType := "outer_wall"
def ItemTypeWorkbench : ItemType := "workbench"
def ItemTypeStorage : ItemType := "storage"
def ItemTypeFurnace : ItemType := "furnace"
def ItemTypeCookingPot : ItemType := "cooking_pot"

/-- `types.Item`: a placeable item.  The Go field `Type` is spelled `Type'`
here because `Type` is a Lean keyword. -/
structure Item where
  ID : String
  Type' : ItemType
  Position : PalBaseIQ.Position
  Bounds : BoundingBox
  Rotation : Int
  Priority : Int
deriving DecidableEq, Repr

/-- `types.Item.GetOccupiedPositions`: the item's footprint, anchored at its
position, enumerated in the source's `x`-outer, `y`-middle, `z`-inner order. -/
def Item.GetOccupiedPositions (i : Item) : List PalBaseIQ.Position :=
  (List.range i.Bounds.Width.toNat).flatMap fun x =>
    (List.range i.Bounds.Height.toNat).flatMap fun y =>
      (List.range i.Bounds.Depth.toNat).map fun z =>
        ⟨i.Position.X + x, i.Position.Y + y, i.Position.Z + z⟩

/-- `types.Base`: the spatial model.  `Items` is the Go map `map[string]*Item`
modelled as an association list whose order stands for the map's iteration
order; `Grid` is the dense occupancy grid modelled as a predicate. -/
structure Base where
  Width : Int
  Height : Int
  Depth : Int
  Items : List (String × Item)
  Grid : Position → Bool

/-- `types.NewBase`: an empty base of the given dimensions. -/
def NewBase (width height depth : Int) : Base :=
  { Width := width, Height := height, Depth := depth
    Items := [], Grid := fun _ => false }

/-- `types.Base.IsPositionValid`. -/
def Base.IsPositionValid (b : Base) (pos : Position) : Bool :=
  0 ≤ pos.X && pos.X < b.Width &&
  (0 ≤ pos.Y && pos.Y < b.Height) &&
  (0 ≤ pos.Z && pos.Z < b.Depth)

/-- `types.Base.IsPositionOccupied`: invalid positions count as occupied. -/
def Base.IsPositionOccupied (b : Base) (pos : Position) : Bool :=
  if ¬ b.IsPositionValid pos then true else b.Grid pos

/-- `types.Base.CanPlaceItem`: every footprint voxel valid and unoccupied. -/
def Base.CanPlaceItem (b : Base) (item : Item) : Bool :=
  item.GetOccupiedPositions.all fun pos => ¬ b.IsPositionOccupied pos

/-- Insertion into the `Items` map: Go map assignment overwrites the binding
of an existing key and otherwise adds a new one.  (On the duplicate-free key
lists that model Go maps, replacing the first binding is the map update.) -/
def insertItem (l : List (String × Item)) (id : String) (item : Item) :
    List (String × Item) :=
  match l with
  | [] => [(id, item)]
  | e :: tl => if e.1 = id then (id, item) :: tl else e :: insertItem tl id item

/-- `types.Base.PlaceItem`, returning the updated base and an optional error
(the method mutates its receiver and returns `error` in Go). -/
def Base.PlaceItem (b : Base) (item : Item) : Base × Option String :=
  if ¬ b.CanPlaceItem item then
    (b, some ("cannot place item " ++ item.ID))
  else
    ({ b with
        Grid := fun p => b.Grid p || decide (p ∈ item.GetOccupiedPositions)
        Items := insertItem b.Items item.ID item },
     none)

/-- `types.Base.RemoveItem`. -/
def Base.RemoveItem (b : Base) (itemID : String) : Base × Option String :=
  match b.Items.find? (fun e => e.1 = itemID) with
  | none => (b, some ("item " ++ itemID ++ " not found"))
  | some (_, item) =>
      ({ b with
          Grid := fun p => b.Grid p && ! decide (p ∈ item.GetOccupiedPositions)
          Items := b.Items.filter fun e => ¬ e.1 = itemID },
       none)

/-- `types.Base.GetFreePositions`: all in-bounds grid cells that are not
marked occupied, scanned in the source's `x`-outer, `y`, `z`-inner order. -/
def Base.GetFreePositions (b : Base) : List Position :=
  (List.range b.Width.toNat).flatMap fun x =>
    (List.range b.Height.toNat).flatMap fun y =>
      (List.range b.Depth.toNat).filterMap fun z =>
        let p : Position := ⟨x, y, z⟩
        if b.Grid p then none else some p

/-- `types.Base.GetOccupiedPositions` (the scan over marked cells). -/
def Base.GetOccupiedPositionsScan (b : Base) : List Position :=
  (List.range b.Width.toNat).flatMap fun x =>
    (List.range b.Height.toNat).flatMap fun y =>
      (List.range b.Depth.toNat).filterMap fun z =>
        let p : Position := ⟨x, y, z⟩
        if b.Grid p then some p else none

/-- `types.Base.Clone`: a deep copy.  In the functional model the clone has
the same contents; item structs are copied field by field in the source. -/
def Base.Clone (b : Base) : Base :=
  { Width := b.Width, Height := b.Height, Depth := b.Depth
    Items := b.Items.map fun e =>
      (e.1, { ID := e.2.ID, Type' := e.2.Type', Position := e.2.Position
              Bounds := e.2.Bounds, Rotation := e.2.Rotation
              Priority := e.2.Priority })
    Grid := fun p => b.Grid p }

/-! ## Facts about the `Items` map operations -/

theorem insertItem_find_self (l : List (String × Item)) (id : String) (it : Item) :
    (insertItem l id it).find? (fun e => e.1 = id) = some (id, it) := by
  induction l with
  | nil => simp [insertItem, List.find?]
  | cons a tl ih =>
      by_cases ha : a.1 = id
      · simp [insertItem, ha, List.find?]
      · simp only [insertItem, if_neg ha, List.find?]
        have : (decide (a.1 = id)) = false := by simpa using ha
        rw [this]
        exact ih

theorem insertItem_find_other (l : List (String × Item)) (id id' : String)
    (it : Item) (h : ¬ id' = id) :
    (insertItem l id it).find? (fun e => e.1 = id') =
      l.find? (fun e => e.1 = id') := by
  induction l with
  | nil =>
      simp only [insertItem, List.find?]
      have : (decide (id = id')) = false := by
        simp
        intro hc
        exact h hc.symm
      rw [this]
  | cons a tl ih =>
      by_cases ha : a.1 = id
      · have h2 : (decide (a.1 = id')) = false := by
          simp
          intro hc
          rw [ha] at hc
          exact h hc.symm
        have h1 : (decide (id = id')) = false := by
          simp
          intro hc
          exact h hc.symm
        simp only [insertItem, if_pos ha, List.find?, h1, h2]
      · simp only [insertItem, if_neg ha, List.find?]
        cases hfa : (decide (a.1 = id')) with
        | true => rfl
        | false => exact ih

theorem insertItem_fresh (l : List (String × Item)) (id : String) (it : Item)
    (h : ∀ e ∈ l, ¬ e.1 = id) :
    insertItem l id it = l ++ [(id, it)] := by
  induction l with
  | nil => simp [insertItem]
  | cons a tl ih =>
      have ha : ¬ a.1 = id := h a (by simp)
      simp only [insertItem, if_neg ha, List.cons_append, List.cons.injEq,
        true_and]
      exact ih fun e he => h e (by simp [he])

/-! ## C5: `PlaceItem` failure and success behaviour -/

/-- **C5.** `PlaceItem` fails exactly when `CanPlaceItem` is false; on failure
the base (both `Grid` and `Items`) is returned unchanged; on success every
footprint voxel is marked occupied (and nothing else changes in the grid) and
the item is inserted into `Items` under its ID, leaving other IDs' bindings
unchanged. -/
theorem PlaceItem_spec (b : Base) (item : Item) :
    ((b.PlaceItem item).2.isSome ↔ ¬ b.CanPlaceItem item) ∧
    ((b.PlaceItem item).2.isSome → (b.PlaceItem item).1 = b) ∧
    (b.CanPlaceItem item →
      (∀ p, (b.PlaceItem item).1.Grid p = true ↔
        (b.Grid p = true ∨ p ∈ item.GetOccupiedPositions)) ∧
      (b.PlaceItem item).1.Items.find? (fun e => e.1 = item.ID) =
        some (item.ID, item) ∧
      (∀ id, ¬ id = item.ID →
        (b.PlaceItem item).1.Items.find? (fun e => e.1 = id) =
          b.Items.find? (fun e => e.1 = id))) := by
  unfold Base.PlaceItem
  by_cases h : b.CanPlaceItem item
  · simp only [h, Bool.not_true, Bool.false_eq_true, not_false_iff, if_neg,
      if_false]
    refine ⟨by simp [h], by simp, fun _ => ⟨fun p => by simp, ?_, ?_⟩⟩
    · exact insertItem_find_self b.Items item.ID item
    · intro id hid
      exact insertItem_find_other b.Items item.ID id item hid
  · have hb : (¬ b.CanPlaceItem item = true) := by simpa using h
    simp only [if_pos hb]
    refine ⟨by simpa using h, by simp, fun hc => absurd hc h⟩

/-- Witness for C5: on a concrete 2×1×1 base, placing a 1×1×1 item at the
origin succeeds, marks the origin voxel, and binds the item's ID. -/
theorem PlaceItem_spec_witness :
    ((NewBase 2 1 1).CanPlaceItem ⟨"a", ItemTypePalBed, ⟨0,0,0⟩, ⟨1,1,1⟩, 0, 0⟩) ∧
    ((NewBase 2 1 1).PlaceItem ⟨"a", ItemTypePalBed, ⟨0,0,0⟩, ⟨1,1,1⟩, 0, 0⟩).1.Grid
      ⟨0,0,0⟩ = true := by
  have h := (PlaceItem_spec (NewBase 2 1 1)
    ⟨"a", ItemTypePalBed, ⟨0,0,0⟩, ⟨1,1,1⟩, 0, 0⟩).2.2 (by decide)
  exact ⟨by decide, (h.1 ⟨0,0,0⟩).2 (Or.inr (by decide))⟩

/-! ## C6: the Grid/Items coherence invariant -/

/-- Bases reachable from an empty base by successful `PlaceItem`,
`RemoveItem` and `Clone` operations, exactly as quantified by the claim. -/
inductive Reach : Base → Prop where
  | empty (w h d : Int) : Reach (NewBase w h d)
  | place {b : Base} (it : Item) : Reach b → (b.PlaceItem it).2 = none →
      Reach (b.PlaceItem it).1
  | remove {b : Base} (id : String) : Reach b → (b.RemoveItem id).2 = none →
      Reach (b.RemoveItem id).1
  | clone {b : Base} : Reach b → Reach b.Clone

/-- The claimed invariant: a voxel is marked in `Grid` iff it is covered by
the footprint of some item currently in `Items`. -/
def GridMatchesItems (b : Base) : Prop :=
  ∀ p, b.Grid p = true ↔ ∃ e ∈ b.Items, p ∈ e.2.GetOccupiedPositions

def c6ItemA : Item := ⟨"a", ItemTypePalBed, ⟨0,0,0⟩, ⟨1,1,1⟩, 0, 0⟩

def c6ItemA2 : Item := ⟨"a", ItemTypePalBed, ⟨1,0,0⟩, ⟨1,1,1⟩, 0, 0⟩

def c6Base1 : Base := ((NewBase 2 1 1).PlaceItem c6ItemA).1

def c6Base2 : Base := (c6Base1.PlaceItem c6ItemA2).1

/-- **C6 counterexample.**  Two successful `PlaceItem` calls that reuse the
same ID: the second overwrites the `Items` binding but the first item's
footprint voxel stays marked in `Grid`, so the reachable base `c6Base2`
violates the claimed invariant at voxel (0,0,0). -/
theorem gridMatchesItems_fails_on_reachable :
    Reach c6Base2 ∧ ¬ GridMatchesItems c6Base2 := by
  constructor
  · exact Reach.place c6ItemA2
      (Reach.place c6ItemA (Reach.empty 2 1 1) (by decide)) (by decide)
  · intro hinv
    have h0 : c6Base2.Grid ⟨0,0,0⟩ = true := by decide
    rcases (hinv ⟨0,0,0⟩).mp h0 with ⟨e, he, hp⟩
    have hItems : c6Base2.Items = [("a", c6ItemA2)] := by decide
    rw [hItems] at he
    simp only [List.mem_singleton] at he
    subst he
    exact absurd hp (by decide)

/-! ### The amended invariant: no ID is placed twice -/

/-- Reachability where each `PlaceItem` uses an ID not already bound. -/
inductive FreshReach : Base → Prop where
  | empty (w h d : Int) : FreshReach (NewBase w h d)
  | place {b : Base} (it : Item) : FreshReach b →
      (∀ e ∈ b.Items, ¬ e.1 = it.ID) → (b.PlaceItem it).2 = none →
      FreshReach (b.PlaceItem it).1
  | remove {b : Base} (id : String) : FreshReach b →
      (b.RemoveItem id).2 = none → FreshReach (b.RemoveItem id).1
  | clone {b : Base} : FreshReach b → FreshReach b.Clone

/-- Disjointness of two items' footprints. -/
def FootDisj (i j : Item) : Prop :=
  ∀ p, p ∈ i.GetOccupiedPositions → p ∉ j.GetOccupiedPositions

theorem FootDisj.symm {i j : Item} (h : FootDisj i j) : FootDisj j i :=
  fun p hp hq => h p hq hp

/-- Two distinct members of a pairwise-disjoint item list have disjoint
footprints (in either order). -/
theorem pairwise_footDisj_of_mem {l : List (String × Item)}
    (h : l.Pairwise (fun e f => FootDisj e.2 f.2))
    {e f : String × Item} (he : e ∈ l) (hf : f ∈ l) (hne : ¬ e = f) :
    FootDisj e.2 f.2 := by
  induction l with
  | nil => cases he
  | cons a tl ih =>
      rcases List.pairwise_cons.mp h with ⟨ha, htl⟩
      rcases List.mem_cons.mp he with he1 | he1 <;>
        rcases List.mem_cons.mp hf with hf1 | hf1
      · exact absurd (he1.trans hf1.symm) hne
      · subst he1; exact ha f hf1
      · subst hf1; exact (ha e he1).symm
      · exact ih htl he1 hf1

/-- Induction-strengthened invariant: grid/items coherence, duplicate-free
keys, and pairwise disjoint footprints. -/
def StrongInv (b : Base) : Prop :=
  GridMatchesItems b ∧
  (b.Items.map Prod.fst).Nodup ∧
  b.Items.Pairwise (fun e f => FootDisj e.2 f.2)

theorem PlaceItem_none_iff (b : Base) (it : Item) :
    (b.PlaceItem it).2 = none ↔ b.CanPlaceItem it := by
  unfold Base.PlaceItem
  by_cases h : b.CanPlaceItem it
  · simp [h]
  · simp only [Bool.not_eq_true] at h
    simp [h]

/-- A footprint voxel of a placeable item is unmarked in the grid. -/
theorem grid_false_of_canPlace {b : Base} {it : Item} (h : b.CanPlaceItem it)
    {p : Position} (hp : p ∈ it.GetOccupiedPositions) : b.Grid p = false := by
  unfold Base.CanPlaceItem at h
  have := List.all_eq_true.mp h p hp
  simp only [Bool.not_eq_true'] at this
  unfold Base.IsPositionOccupied at this
  by_cases hv : b.IsPositionValid p
  · simpa [hv] using this
  · simp [hv] at this

/-- In a duplicate-free association list, two entries with the same key are
the same entry. -/
theorem nodupKeys_eq {l : List (String × Item)}
    (h : (l.map Prod.fst).Nodup) {e f : String × Item}
    (he : e ∈ l) (hf : f ∈ l) (hk : e.1 = f.1) : e = f := by
  induction l with
  | nil => cases he
  | cons a tl ih =>
      simp only [List.map_cons, List.nodup_cons] at h
      rcases List.mem_cons.mp he with he1 | he1 <;>
        rcases List.mem_cons.mp hf with hf1 | hf1
      · rw [he1, hf1]
      · exfalso
        subst he1
        exact h.1 (by rw [hk]; exact List.mem_map.mpr ⟨f, hf1, rfl⟩)
      · exfalso
        subst hf1
        exact h.1 (by rw [← hk]; exact List.mem_map.mpr ⟨e, he1, rfl⟩)
      · exact ih h.2 he1 hf1

theorem StrongInv_place {b : Base} (it : Item)
    (hinv : StrongInv b) (hfresh : ∀ e ∈ b.Items, ¬ e.1 = it.ID)
    (hok : (b.PlaceItem it).2 = none) : StrongInv (b.PlaceItem it).1 := by
  have hcan : b.CanPlaceItem it = true := (PlaceItem_none_iff b it).mp hok
  have hnotcan : (¬ b.CanPlaceItem it = true) = False := by simp [hcan]
  obtain ⟨hgrid, hnodup, hdisj⟩ := hinv
  have hins : insertItem b.Items it.ID it = b.Items ++ [(it.ID, it)] :=
    insertItem_fresh b.Items it.ID it hfresh
  have hfst : (b.PlaceItem it).1 =
      { b with
        Grid := fun p => b.Grid p || decide (p ∈ it.GetOccupiedPositions)
        Items := b.Items ++ [(it.ID, it)] } := by
    unfold Base.PlaceItem
    rw [if_neg (by simp [hcan])]
    simp [hins]
  rw [hfst]
  refine ⟨?_, ?_, ?_⟩
  · intro p
    simp only [Bool.or_eq_true, decide_eq_true_eq]
    constructor
    · rintro (hp | hp)
      · rcases (hgrid p).mp hp with ⟨e, he, hpe⟩
        exact ⟨e, by simp [he], hpe⟩
      · exact ⟨(it.ID, it), by simp, hp⟩
    · rintro ⟨e, he, hpe⟩
      rcases List.mem_append.mp he with he | he
      · exact Or.inl ((hgrid p).mpr ⟨e, he, hpe⟩)
      · simp only [List.mem_singleton] at he
        subst he
        exact Or.inr hpe
  · simp only [List.map_append, List.map_cons, List.map_nil]
    rw [List.nodup_append]
    refine ⟨hnodup, by simp, ?_⟩
    intro a ha hb
    simp only [List.mem_singleton] at hb
    subst hb
    rcases List.mem_map.mp ha with ⟨e, he, hek⟩
    exact hfresh e he hek
  · rw [List.pairwise_append]
    refine ⟨hdisj, by simp, ?_⟩
    intro e he f hf
    simp only [List.mem_singleton] at hf
    subst hf
    intro p hpe hpit
    have hmarked : b.Grid p = true := (hgrid p).mpr ⟨e, he, hpe⟩
    have hfree : b.Grid p = false := grid_false_of_canPlace hcan hpit
    rw [hmarked] at hfree
    cases hfree

theorem StrongInv_remove {b : Base} (id : String)
    (hinv : StrongInv b) (hok : (b.RemoveItem id).2 = none) :
    StrongInv (b.RemoveItem id).1 := by
  obtain ⟨hgrid, hnodup, hdisj⟩ := hinv
  cases hfind : b.Items.find? (fun e => e.1 = id) with
  | none =>
      exfalso
      unfold Base.RemoveItem at hok
      rw [hfind] at hok
      cases hok
  | some f =>
      obtain ⟨fk, fit⟩ := f
      have hmem : (fk, fit) ∈ b.Items := List.mem_of_find?_eq_some hfind
      have hkey : fk = id := by
        have := List.find?_some hfind
        simpa using this
      subst hkey
      have hres : (b.RemoveItem fk).1 =
          { b with
            Grid := fun p => b.Grid p &&
              ! decide (p ∈ fit.GetOccupiedPositions)
            Items := b.Items.filter fun e => ¬ e.1 = fk } := by
        unfold Base.RemoveItem
        rw [hfind]
      rw [hres]
      refine ⟨?_, ?_, ?_⟩
      · intro p
        simp only [Bool.and_eq_true, Bool.not_eq_true', decide_eq_false_iff_not]
        constructor
        · rintro ⟨hp, hpf⟩
          rcases (hgrid p).mp hp with ⟨e, he, hpe⟩
          refine ⟨e, List.mem_filter.mpr ⟨he, ?_⟩, hpe⟩
          simp only [decide_eq_true_eq]
          intro hek
          have : e = (fk, fit) := nodupKeys_eq hnodup he hmem hek
          subst this
          exact hpf hpe
        · rintro ⟨e, he, hpe⟩
          have he' := List.mem_filter.mp he
          have hne : ¬ e.1 = fk := by simpa using he'.2
          refine ⟨(hgrid p).mpr ⟨e, he'.1, hpe⟩, ?_⟩
          intro hpf
          have hef : ¬ e = (fk, fit) := fun hc => hne (by rw [hc])
          exact pairwise_footDisj_of_mem hdisj he'.1 hmem hef p hpe hpf
      · have hsub : (b.Items.filter fun e => decide ¬ e.1 = fk).Sublist
            b.Items := List.filter_sublist _
        exact List.Nodup.sublist (hsub.map Prod.fst) hnodup
      · exact List.Pairwise.sublist (List.filter_sublist _) hdisj

theorem Clone_eq (b : Base) : b.Clone = b := by
  cases b with
  | mk w h d items grid =>
      unfold Base.Clone
      simp only [Base.mk.injEq, true_and]
      constructor
      · have : ∀ e : String × Item,
            (e.1, ({ ID := e.2.ID, Type' := e.2.Type', Position := e.2.Position
                     Bounds := e.2.Bounds, Rotation := e.2.Rotation
                     Priority := e.2.Priority } : Item)) = e := by
          rintro ⟨k, it⟩
          rfl
        simp only [this, List.map_id_fun', id]
      · trivial

theorem FreshReach_strongInv {b : Base} (h : FreshReach b) : StrongInv b := by
  induction h with
  | empty w h d =>
      refine ⟨fun p => ?_, by simp [NewBase], by simp [NewBase]⟩
      simp [NewBase]
  | place it _ hfresh hok ih => exact StrongInv_place it ih hfresh hok
  | remove id _ hok ih => exact StrongInv_remove id ih hok
  | clone _ ih => rw [Clone_eq]; exact ih

/-- **C6 (amended).**  For every Base reachable from an empty Base by
successful `PlaceItem`, `RemoveItem` and `Clone` operations in which no
`PlaceItem` reuses an ID already present in `Items`, a voxel is marked
occupied in `Grid` iff it lies in `GetOccupiedPositions()` of some item in
the `Items` mapping. -/
theorem gridMatchesItems_of_freshReach (b : Base) (h : FreshReach b) :
    GridMatchesItems b :=
  (FreshReach_strongInv h).1

/-- Witness for the amended C6: a concrete fresh placement on a 2×1×1 base. -/
theorem gridMatchesItems_of_freshReach_witness :
    ((NewBase 2 1 1).PlaceItem c6ItemA).2 = none ∧ GridMatchesItems c6Base1 :=
  ⟨by decide, gridMatchesItems_of_freshReach c6Base1
    (FreshReach.place c6ItemA (FreshReach.empty 2 1 1)
      (by intro e he; cases he) (by decide))⟩

/-! ## Pathing graph (`pkg/pathing`)

`GetNodeKey` renders a position as the string `"x,y,z"`, which is injective,
so node keys are modelled by `Position` itself.  The only heuristic the code
ever installs is `ManhattanDistance` (set by `NewGraph` and never changed),
so the search below uses it directly. -/

/-- Search bookkeeping of `pathing.Node`.  A node object is created with
`Cost = math.Inf(1)`; in the model a node is absent from the search map until
its first relaxation, which in the source immediately replaces the infinite
cost (`tentativeCost < math.Inf(1)` always holds). -/
structure NodeInfo where
  Cost : ℚ
  Priority : ℚ
  Parent : Option Position
deriving DecidableEq, Repr

/-- `pathing.Path`. -/
structure Path where
  Nodes : List Position
  Distance : ℚ
  Cost : ℚ
deriving DecidableEq, Repr

/-- `pathing.Edge`. -/
structure Edge where
  From : Position
  To : Position
  Cost : ℚ
  Weight : ℚ
deriving DecidableEq, Repr

/-- `pathing.ManhattanDistance`, the default (and only installed) heuristic. -/
def ManhattanHeuristic (p q : Position) : ℚ :=
  ((p.ManhattanDistance q : ℤ) : ℚ)

/-- The six axis directions, in the source's order. -/
def directions : List Position :=
  [⟨0, 1, 0⟩, ⟨0, -1, 0⟩, ⟨-1, 0, 0⟩, ⟨1, 0, 0⟩, ⟨0, 0, -1⟩, ⟨0, 0, 1⟩]

/-- `pathing.Graph.GetNeighbors`: the valid, unoccupied axis neighbors. -/
def GetNeighbors (b : Base) (pos : Position) : List Position :=
  directions.filterMap fun dir =>
    if b.IsPositionValid ⟨pos.X + dir.X, pos.Y + dir.Y, pos.Z + dir.Z⟩ &&
        ! b.IsPositionOccupied ⟨pos.X + dir.X, pos.Y + dir.Y, pos.Z + dir.Z⟩ then
      some ⟨pos.X + dir.X, pos.Y + dir.Y, pos.Z + dir.Z⟩
    else none

/-- The 27 offsets of the source's 3×3×3 obstacle scan, `dx` outer. -/
def obstacleOffsets : List (Int × Int × Int) :=
  ([-1, 0, 1] : List Int).flatMap fun dx =>
    ([-1, 0, 1] : List Int).flatMap fun dy =>
      ([-1, 0, 1] : List Int).map fun dz => (dx, dy, dz)

/-- `pathing.Graph.CalculateObstaclePenalty`. -/
def CalculateObstaclePenalty (sqrt : ℚ → ℚ) (b : Base) (pos : Position) : ℚ :=
  (obstacleOffsets.map fun off =>
    let checkPos : Position := ⟨pos.X + off.1, pos.Y + off.2.1, pos.Z + off.2.2⟩
    if b.IsPositionValid checkPos && b.IsPositionOccupied checkPos then
      let distance := sqrt ((off.1 * off.1 + off.2.1 * off.2.1 +
        off.2.2 * off.2.2 : ℤ) : ℚ)
      if 0 < distance then 1 / 10 / distance else 0
    else 0).sum

/-- `pathing.Graph.CalculateEdgeCost`: Euclidean base cost, ×1.5 when the
step changes `Y`, plus the obstacle-proximity penalty at the destination
(the Go parameters `from, to` are spelled `fr, dst`; both are keywords). -/
def CalculateEdgeCost (sqrt : ℚ → ℚ) (b : Base) (fr dst : Position) : ℚ :=
  let baseCost := fr.Distance sqrt dst
  let baseCost := if fr.Y ≠ dst.Y then baseCost * (3 / 2) else baseCost
  baseCost + CalculateObstaclePenalty sqrt b dst

/-- The typed errors of `FindPath` (the source formats them with
`fmt.Errorf`; only the three kinds below exist). -/
inductive PathError where
  | invalidPosition
  | positionOccupied
  | noPathFound
deriving DecidableEq, Repr

/-- The A* search state: the open list (the mutable priority queue), the
closed set, and the `allNodes` bookkeeping map. -/
structure SearchState where
  openList : List Position
  closed : Finset Position
  nodes : Position → Option NodeInfo

/-- The stored priority of a position (`0` as a junk value for positions
outside the map; open-list members always have entries). -/
def prioOf (nodes : Position → Option NodeInfo) (p : Position) : ℚ :=
  match nodes p with
  | some i => i.Priority
  | none => 0

/-- The minimum-priority element of the open list (leftmost on ties).
`container/heap` is standard-library code; it is modelled by its documented
contract: `Pop` removes and returns a minimum element w.r.t. `Less`, which
the repository's `PriorityQueue.Less` defines by `Priority`. -/
def selectMin (f : Position → ℚ) : List Position → Option Position
  | [] => none
  | p :: rest =>
      match selectMin f rest with
      | none => some p
      | some q => if f p ≤ f q then some p else some q

/-- Relaxation of a single neighbor, mirroring the body of the source's
neighbor loop (skip closed; create-or-improve; push newly created nodes). -/
def relaxNeighbor (sqrt : ℚ → ℚ) (b : Base) (endP cur : Position)
    (curCost : ℚ) (st : SearchState) (npos : Position) : SearchState :=
  if npos ∈ st.closed then st
  else
    let tentative := curCost + CalculateEdgeCost sqrt b cur npos
    match st.nodes npos with
    | none =>
        { openList := st.openList ++ [npos]
          closed := st.closed
          nodes := fun p => if p = npos then
            some ⟨tentative, tentative + ManhattanHeuristic npos endP, some cur⟩
            else st.nodes p }
    | some info =>
        if tentative < info.Cost then
          { openList := st.openList
            closed := st.closed
            nodes := fun p => if p = npos then
              some ⟨tentative, tentative + ManhattanHeuristic npos endP, some cur⟩
              else st.nodes p }
        else st

/-- One expansion: close `cur` and relax all of its neighbors in order. -/
def expand (sqrt : ℚ → ℚ) (b : Base) (endP cur : Position) (curCost : ℚ)
    (st : SearchState) : SearchState :=
  (GetNeighbors b cur).foldl (relaxNeighbor sqrt b endP cur curCost) st

/-- The walk along parent back-pointers of `pathing.Graph.ReconstructPath`,
producing positions in start→goal order.  The fuel argument is a model
artifact; it is proven sufficient wherever path contents matter. -/
def parentChain (nodes : Position → Option NodeInfo) : ℕ → Position → List Position
  | 0, p => [p]
  | fuel + 1, p =>
      match nodes p with
      | some info =>
          match info.Parent with
          | some par => parentChain nodes fuel par ++ [p]
          | none => [p]
      | none => [p]

/-- The consecutive pairs of a list (`positions[i-1], positions[i]`). -/
def consecPairs : List Position → List (Position × Position)
  | [] => []
  | [_] => []
  | p :: q :: rest => (p, q) :: consecPairs (q :: rest)

/-- `pathing.Graph.ReconstructPath`: walk the parents, then re-sum Distance
and Cost over the reconstructed sequence with the edge-cost function. -/
def ReconstructPath (sqrt : ℚ → ℚ) (b : Base)
    (nodes : Position → Option NodeInfo) (fuel : ℕ) (goal : Position) : Path :=
  let positions := parentChain nodes fuel goal
  { Nodes := positions
    Distance := ((consecPairs positions).map fun e => e.1.Distance sqrt e.2).sum
    Cost := ((consecPairs positions).map fun e =>
      CalculateEdgeCost sqrt b e.1 e.2).sum }

/-- The stored cost of the popped node (`0` is junk for an absent entry;
popped positions always have entries). -/
def curCostOf (nodes : Position → Option NodeInfo) (cur : Position) : ℚ :=
  match nodes cur with
  | some i => i.Cost
  | none => 0

/-- Removing the popped node from the open list and closing it. -/
def closeState (st : SearchState) (cur : Position) : SearchState :=
  { openList := st.openList.erase cur
    closed := insert cur st.closed
    nodes := st.nodes }

/-- The A* main loop.  `none` means the fuel ran out, which is proven not to
happen for the fuel supplied by `FindPath`. -/
def astarLoop (sqrt : ℚ → ℚ) (b : Base) (chainFuel : ℕ) (endP : Position) :
    ℕ → SearchState → Option (Except PathError Path)
  | 0, _ => none
  | fuel + 1, st =>
      match selectMin (prioOf st.nodes) st.openList with
      | none => some (Except.error PathError.noPathFound)
      | some cur =>
          if cur = endP then
            some (Except.ok (ReconstructPath sqrt b st.nodes chainFuel cur))
          else
            astarLoop sqrt b chainFuel endP fuel
              (expand sqrt b endP cur (curCostOf st.nodes cur)
                (closeState st cur))

theorem astarLoop_empty (sqrt : ℚ → ℚ) (b : Base) (chainFuel : ℕ)
    (endP : Position) (fuel : ℕ) (st : SearchState)
    (hsel : selectMin (prioOf st.nodes) st.openList = none) :
    astarLoop sqrt b chainFuel endP (fuel + 1) st =
      some (Except.error PathError.noPathFound) := by
  rw [astarLoop, hsel]

theorem astarLoop_goal (sqrt : ℚ → ℚ) (b : Base) (chainFuel : ℕ)
    (endP : Position) (fuel : ℕ) (st : SearchState) (cur : Position)
    (hsel : selectMin (prioOf st.nodes) st.openList = some cur)
    (hend : cur = endP) :
    astarLoop sqrt b chainFuel endP (fuel + 1) st =
      some (Except.ok (ReconstructPath sqrt b st.nodes chainFuel cur)) := by
  rw [astarLoop, hsel]
  exact if_pos hend

theorem astarLoop_cont (sqrt : ℚ → ℚ) (b : Base) (chainFuel : ℕ)
    (endP : Position) (fuel : ℕ) (st : SearchState) (cur : Position)
    (hsel : selectMin (prioOf st.nodes) st.openList = some cur)
    (hend : ¬ cur = endP) :
    astarLoop sqrt b chainFuel endP (fuel + 1) st =
      astarLoop sqrt b chainFuel endP fuel
        (expand sqrt b endP cur (curCostOf st.nodes cur) (closeState st cur)) := by
  rw [astarLoop, hsel]
  exact if_neg hend

/-- The fuel supplied to the search and reconstruction, a model artifact
standing in for the source's unbounded loops: strictly more than the number
of grid cells (so the search loop never runs dry) and strictly more than any
possible path cost (so parent-chain reconstruction never runs dry). -/
def searchFuel (b : Base) : ℕ :=
  3 * (b.Width.toNat * b.Height.toNat * b.Depth.toNat) + 1

/-- `pathing.Graph.FindPath` over the graph's base (the heuristic is the
default `ManhattanDistance` installed by `NewGraph`). -/
def FindPath (sqrt : ℚ → ℚ) (b : Base) (start endP : Position) :
    Option (Except PathError Path) :=
  if ! b.IsPositionValid start || ! b.IsPositionValid endP then
    some (Except.error PathError.invalidPosition)
  else if b.IsPositionOccupied start || b.IsPositionOccupied endP then
    some (Except.error PathError.positionOccupied)
  else
    astarLoop sqrt b (searchFuel b) endP (searchFuel b)
      { openList := [start]
        closed := ∅
        nodes := fun p => if p = start then
          some ⟨0, ManhattanHeuristic start endP, none⟩ else none }

/-- `pathing.Graph`.  Node keys (`"x,y,z"` strings) are modelled by the
positions themselves; a freshly added node stores its position together with
`Cost = +∞`, `Priority = 0` and a nil parent, identical for every node, so
the `Nodes` map's content is its key set.  `Edges` is the map's content as a
function (a missing key and an empty slice are indistinguishable). -/
structure Graph where
  Base : PalBaseIQ.Base
  Nodes : List Position
  Edges : Position → List Edge

/-- `pathing.NewGraph`. -/
def NewGraph (b : Base) : Graph :=
  { Base := b, Nodes := [], Edges := fun _ => [] }

/-- `pathing.Graph.BuildGraph`: clear, add a node per free voxel, then add
the outgoing edges of every free voxel to each valid free neighbor. -/
def BuildGraph (sqrt : ℚ → ℚ) (g : Graph) : Graph :=
  let free := g.Base.GetFreePositions
  { Base := g.Base
    Nodes := free
    Edges := fun p =>
      if p ∈ free then
        (GetNeighbors g.Base p).map fun n =>
          ⟨p, n, CalculateEdgeCost sqrt g.Base p n,
            CalculateEdgeCost sqrt g.Base p n⟩
      else [] }

/-- **C9.**  Rebuilding the graph twice over an unchanged base yields exactly
the node set and edge lists of a single rebuild: `BuildGraph` clears and
repopulates `Nodes`/`Edges` purely from the base's current free voxels. -/
theorem BuildGraph_idempotent (sqrt : ℚ → ℚ) (g : Graph) :
    (BuildGraph sqrt (BuildGraph sqrt g)).Nodes = (BuildGraph sqrt g).Nodes ∧
    (∀ p, (BuildGraph sqrt (BuildGraph sqrt g)).Edges p =
      (BuildGraph sqrt g).Edges p) ∧
    (BuildGraph sqrt (BuildGraph sqrt g)).Base = (BuildGraph sqrt g).Base :=
  ⟨rfl, fun _ => rfl, rfl⟩

/-! ## C10: a search whose start equals its goal -/

/-- **C10.**  For a valid, unoccupied position `p`, `FindPath p p` succeeds
and returns the single-node path `[p]` with `Distance = 0` and `Cost = 0`:
the start node is popped first, immediately matches the goal, and the
reconstruction re-sums over an empty list of consecutive pairs. -/
theorem FindPath_self (sqrt : ℚ → ℚ) (b : Base) (p : Position)
    (hv : b.IsPositionValid p = true) (hf : b.Grid p = false) :
    FindPath sqrt b p p = some (Except.ok ⟨[p], 0, 0⟩) := by
  have hocc : b.IsPositionOccupied p = false := by
    unfold Base.IsPositionOccupied
    simp [hv, hf]
  unfold FindPath
  rw [if_neg (by simp [hv]), if_neg (by simp [hocc])]
  show astarLoop sqrt b (searchFuel b) p
      (3 * (b.Width.toNat * b.Height.toNat * b.Depth.toNat) + 1) _ = _
  rw [astarLoop]
  simp only [selectMin, prioOf]
  rw [if_pos trivial]
  have hchain : parentChain
      (fun q => if q = p then
        some ⟨0, ManhattanHeuristic p p, none⟩ else none)
      (searchFuel b) p = [p] := by
    show parentChain _
      (3 * (b.Width.toNat * b.Height.toNat * b.Depth.toNat) + 1) p = _
    rw [parentChain]
    simp
  unfold ReconstructPath
  rw [hchain]
  simp [consecPairs]

/-- Witness for C10 on a concrete 2×1×1 base. -/
theorem FindPath_self_witness :
    (NewBase 2 1 1).IsPositionValid ⟨1, 0, 0⟩ = true ∧
    (NewBase 2 1 1).Grid ⟨1, 0, 0⟩ = false ∧
    FindPath (fun _ => 0) (NewBase 2 1 1) ⟨1, 0, 0⟩ ⟨1, 0, 0⟩ =
      some (Except.ok ⟨[⟨1, 0, 0⟩], 0, 0⟩) :=
  ⟨by decide, by decide,
    FindPath_self (fun _ => 0) (NewBase 2 1 1) ⟨1, 0, 0⟩ (by decide) (by decide)⟩

/-! ## C7: `FindPath` error behaviour and termination of the search loop -/

/-- The finite set of valid positions of a base. -/
def validFinset (b : Base) : Finset Position :=
  ((Finset.range b.Width.toNat) ×ˢ (Finset.range b.Height.toNat) ×ˢ
    (Finset.range b.Depth.toNat)).image fun t =>
      ⟨(t.1 : ℤ), (t.2.1 : ℤ), (t.2.2 : ℤ)⟩

theorem mem_validFinset {b : Base} {p : Position} :
    p ∈ validFinset b ↔ b.IsPositionValid p = true := by
  obtain ⟨px, py, pz⟩ := p
  unfold validFinset Base.IsPositionValid
  simp only [Finset.mem_image, Finset.mem_product, Finset.mem_range,
    Bool.and_eq_true, decide_eq_true_eq]
  constructor
  · rintro ⟨⟨x, y, z⟩, ⟨hx, hy, hz⟩, heq⟩
    have hx' : x < b.Width.toNat := hx
    have hy' : y < b.Height.toNat := hy
    have hz' : z < b.Depth.toNat := hz
    have heq' : ((x : ℤ) = px ∧ (y : ℤ) = py) ∧ (z : ℤ) = pz := by
      rw [Position.mk.injEq] at heq
      exact ⟨⟨heq.1, heq.2.1⟩, heq.2.2⟩
    show ((0 ≤ px ∧ px < b.Width) ∧ 0 ≤ py ∧ py < b.Height) ∧
      0 ≤ pz ∧ pz < b.Depth
    obtain ⟨⟨h1, h2⟩, h3⟩ := heq'
    omega
  · rintro ⟨⟨⟨hx0, hxw⟩, hy0, hyh⟩, hz0, hzd⟩
    refine ⟨⟨px.toNat, py.toNat, pz.toNat⟩, ⟨?_, ?_, ?_⟩, ?_⟩
    · show px.toNat < b.Width.toNat
      omega
    · show py.toNat < b.Height.toNat
      omega
    · show pz.toNat < b.Depth.toNat
      omega
    · show Position.mk (px.toNat : ℤ) (py.toNat : ℤ) (pz.toNat : ℤ) =
        Position.mk px py pz
      simp only [Position.mk.injEq]
      omega

theorem card_validFinset (b : Base) :
    (validFinset b).card ≤
      b.Width.toNat * b.Height.toNat * b.Depth.toNat := by
  refine le_trans Finset.card_image_le ?_
  rw [Finset.card_product, Finset.card_product]
  simp [Finset.card_range, Nat.mul_assoc]

theorem selectMin_mem {f : Position → ℚ} :
    ∀ {l : List Position} {p : Position}, selectMin f l = some p → p ∈ l := by
  intro l
  induction l with
  | nil => intro p h; cases h
  | cons a tl ih =>
      intro p h
      rw [selectMin] at h
      cases hm : selectMin f tl with
      | none =>
          simp only [hm] at h
          cases h
          simp
      | some q =>
          simp only [hm] at h
          by_cases hle : f a ≤ f q
          · rw [if_pos hle] at h
            cases h
            simp
          · rw [if_neg hle] at h
            cases h
            exact List.mem_cons_of_mem a (ih hm)

theorem selectMin_eq_none {f : Position → ℚ} :
    ∀ {l : List Position}, selectMin f l = none → l = [] := by
  intro l h
  cases l with
  | nil => rfl
  | cons a tl =>
      rw [selectMin] at h
      cases hm : selectMin f tl with
      | none => simp only [hm] at h; cases h
      | some q =>
          simp only [hm] at h
          by_cases hle : f a ≤ f q
          · rw [if_pos hle] at h; cases h
          · rw [if_neg hle] at h; cases h

theorem selectMin_le {f : Position → ℚ} :
    ∀ {l : List Position} {p : Position}, selectMin f l = some p →
      ∀ q ∈ l, f p ≤ f q := by
  intro l
  induction l with
  | nil => intro p h; cases h
  | cons a tl ih =>
      intro p h q hq
      rw [selectMin] at h
      cases hm : selectMin f tl with
      | none =>
          simp only [hm] at h
          cases h
          have : tl = [] := selectMin_eq_none hm
          subst this
          rcases List.mem_singleton.mp hq with rfl
          exact le_refl _
      | some m =>
          simp only [hm] at h
          by_cases hle : f a ≤ f m
          · rw [if_pos hle] at h
            cases h
            rcases List.mem_cons.mp hq with hqa | hq'
            · rw [hqa]
            · exact le_trans hle (ih hm q hq')
          · rw [if_neg hle] at h
            cases h
            rcases List.mem_cons.mp hq with hqa | hq'
            · rw [hqa]
              exact le_of_lt (lt_of_not_le hle)
            · exact ih hm q hq'

theorem GetNeighbors_valid {b : Base} {pos n : Position}
    (h : n ∈ GetNeighbors b pos) : b.IsPositionValid n = true := by
  unfold GetNeighbors at h
  rcases List.mem_filterMap.mp h with ⟨dir, _, hdir⟩
  by_cases hc : (b.IsPositionValid ⟨pos.X + dir.X, pos.Y + dir.Y, pos.Z + dir.Z⟩ &&
      ! b.IsPositionOccupied ⟨pos.X + dir.X, pos.Y + dir.Y, pos.Z + dir.Z⟩) = true
  · rw [if_pos hc] at hdir
    cases hdir
    rw [Bool.and_eq_true] at hc
    exact hc.1
  · rw [if_neg hc] at hdir
    cases hdir

theorem GetNeighbors_free {b : Base} {pos n : Position}
    (h : n ∈ GetNeighbors b pos) : b.IsPositionOccupied n = false := by
  unfold GetNeighbors at h
  rcases List.mem_filterMap.mp h with ⟨dir, _, hdir⟩
  by_cases hc : (b.IsPositionValid ⟨pos.X + dir.X, pos.Y + dir.Y, pos.Z + dir.Z⟩ &&
      ! b.IsPositionOccupied ⟨pos.X + dir.X, pos.Y + dir.Y, pos.Z + dir.Z⟩) = true
  · rw [if_pos hc] at hdir
    cases hdir
    rw [Bool.and_eq_true] at hc
    simpa using hc.2
  · rw [if_neg hc] at hdir
    cases hdir

/-- The structural invariant of the search loop needed for termination. -/
structure LoopInv (b : Base) (st : SearchState) : Prop where
  openNodup : st.openList.Nodup
  openNotClosed : ∀ p ∈ st.openList, p ∉ st.closed
  openValid : ∀ p ∈ st.openList, b.IsPositionValid p = true
  closedValid : ∀ p ∈ st.closed, b.IsPositionValid p = true
  openInNodes : ∀ p ∈ st.openList, st.nodes p ≠ none

theorem relaxNeighbor_closed (sqrt : ℚ → ℚ) (b : Base) (endP cur : Position)
    (curCost : ℚ) (st : SearchState) (npos : Position) :
    (relaxNeighbor sqrt b endP cur curCost st npos).closed = st.closed := by
  unfold relaxNeighbor
  by_cases h : npos ∈ st.closed
  · rw [if_pos h]
  · rw [if_neg h]
    cases st.nodes npos with
    | none => rfl
    | some info =>
        by_cases hlt : curCost + CalculateEdgeCost sqrt b cur npos < info.Cost
        · simp only [hlt, if_true]
        · simp only [hlt, if_false]

theorem expand_closed (sqrt : ℚ → ℚ) (b : Base) (endP cur : Position)
    (curCost : ℚ) (st : SearchState) :
    (expand sqrt b endP cur curCost st).closed = st.closed := by
  unfold expand
  generalize GetNeighbors b cur = l
  induction l generalizing st with
  | nil => rfl
  | cons n tl ih =>
      rw [List.foldl_cons, ih, relaxNeighbor_closed]

theorem relaxNeighbor_inv {sqrt : ℚ → ℚ} {b : Base} {endP cur : Position}
    {curCost : ℚ} {st : SearchState} {npos : Position}
    (hval : b.IsPositionValid npos = true) (hinv : LoopInv b st) :
    LoopInv b (relaxNeighbor sqrt b endP cur curCost st npos) := by
  unfold relaxNeighbor
  by_cases h : npos ∈ st.closed
  · rwa [if_pos h]
  · rw [if_neg h]
    cases hn : st.nodes npos with
    | none =>
        refine ⟨?_, ?_, ?_, hinv.closedValid, ?_⟩
        · have hnotmem : npos ∉ st.openList := by
            intro hc
            exact hinv.openInNodes npos hc hn
          simpa [List.nodup_append] using ⟨hinv.openNodup, hnotmem⟩
        · intro p hp
          rcases List.mem_append.mp hp with hp | hp
          · exact hinv.openNotClosed p hp
          · rcases List.mem_singleton.mp hp with rfl
            exact h
        · intro p hp
          rcases List.mem_append.mp hp with hp | hp
          · exact hinv.openValid p hp
          · rcases List.mem_singleton.mp hp with rfl
            exact hval
        · intro p hp
          by_cases hpe : p = npos
          · simp [hpe]
          · simp only [hpe, if_false]
            rcases List.mem_append.mp hp with hp | hp
            · exact hinv.openInNodes p hp
            · rcases List.mem_singleton.mp hp with rfl
              exact absurd rfl hpe
    | some info =>
        by_cases hlt : curCost + CalculateEdgeCost sqrt b cur npos < info.Cost
        · simp only [hlt, if_true]
          refine ⟨hinv.openNodup, hinv.openNotClosed, hinv.openValid,
            hinv.closedValid, ?_⟩
          intro p hp
          by_cases hpe : p = npos
          · simp [hpe]
          · simp only [hpe, if_false]
            exact hinv.openInNodes p hp
        · simp only [hlt, if_false]
          exact hinv

theorem expand_inv {sqrt : ℚ → ℚ} {b : Base} {endP cur : Position}
    {curCost : ℚ} {st : SearchState} (hinv : LoopInv b st) :
    LoopInv b (expand sqrt b endP cur curCost st) := by
  unfold expand
  have : ∀ n ∈ GetNeighbors b cur, b.IsPositionValid n = true :=
    fun n hn => GetNeighbors_valid hn
  revert this
  generalize GetNeighbors b cur = l
  intro hl
  induction l generalizing st with
  | nil => exact hinv
  | cons n tl ih =>
      rw [List.foldl_cons]
      exact ih (relaxNeighbor_inv (hl n (by simp)) hinv)
        (fun m hm => hl m (by simp [hm]))

/-- Errors produced inside the search loop are always `noPathFound`. -/
theorem astarLoop_error (sqrt : ℚ → ℚ) (b : Base) (chainFuel : ℕ)
    (endP : Position) :
    ∀ (fuel : ℕ) (st : SearchState) (ε : PathError),
      astarLoop sqrt b chainFuel endP fuel st = some (Except.error ε) →
      ε = PathError.noPathFound := by
  intro fuel
  induction fuel with
  | zero => intro st ε h; cases h
  | succ n ih =>
      intro st ε h
      cases hsel : selectMin (prioOf st.nodes) st.openList with
      | none =>
          rw [astarLoop_empty sqrt b chainFuel endP n st hsel] at h
          cases h
          rfl
      | some cur =>
          by_cases hend : cur = endP
          · rw [astarLoop_goal sqrt b chainFuel endP n st cur hsel hend] at h
            cases h
          · rw [astarLoop_cont sqrt b chainFuel endP n st cur hsel hend] at h
            exact ih _ ε h

/-- With the supplied fuel the loop always produces a result: each iteration
closes a fresh valid position and there are only finitely many. -/
theorem astarLoop_ne_none (sqrt : ℚ → ℚ) (b : Base) (chainFuel : ℕ)
    (endP : Position) :
    ∀ (fuel : ℕ) (st : SearchState), LoopInv b st →
      (validFinset b).card + 1 ≤ fuel + st.closed.card →
      astarLoop sqrt b chainFuel endP fuel st ≠ none := by
  intro fuel
  induction fuel with
  | zero =>
      intro st hinv hcard
      exfalso
      have hsub : st.closed ⊆ validFinset b := fun p hp =>
        mem_validFinset.mpr (hinv.closedValid p hp)
      have := Finset.card_le_card hsub
      omega
  | succ n ih =>
      intro st hinv hcard
      cases hsel : selectMin (prioOf st.nodes) st.openList with
      | none => rw [astarLoop_empty sqrt b chainFuel endP n st hsel]; simp
      | some cur =>
          by_cases hend : cur = endP
          · rw [astarLoop_goal sqrt b chainFuel endP n st cur hsel hend]
            simp
          · rw [astarLoop_cont sqrt b chainFuel endP n st cur hsel hend]
            have hcur : cur ∈ st.openList := selectMin_mem hsel
            have hcurclosed : cur ∉ st.closed := hinv.openNotClosed cur hcur
            have hinv1 : LoopInv b (closeState st cur) := by
              refine ⟨hinv.openNodup.erase cur, ?_, ?_, ?_, ?_⟩
              · intro p hp
                have hpo := (hinv.openNodup.mem_erase_iff).mp hp
                show p ∉ insert cur st.closed
                simp only [Finset.mem_insert]
                push_neg
                exact ⟨hpo.1, hinv.openNotClosed p hpo.2⟩
              · intro p hp
                exact hinv.openValid p ((hinv.openNodup.mem_erase_iff).mp hp).2
              · intro p hp
                have hp' : p ∈ insert cur st.closed := hp
                rcases Finset.mem_insert.mp hp' with rfl | hp2
                · exact hinv.openValid p hcur
                · exact hinv.closedValid p hp2
              · intro p hp
                exact hinv.openInNodes p ((hinv.openNodup.mem_erase_iff).mp hp).2
            have hcards : (insert cur st.closed).card = st.closed.card + 1 :=
              Finset.card_insert_of_not_mem hcurclosed
            refine ih _ (expand_inv hinv1) ?_
            rw [expand_closed]
            have hcc : (closeState st cur).closed = insert cur st.closed := rfl
            rw [hcc, hcards]
            omega

/-- **C7.**  `FindPath` fails with `invalidPosition` whenever either endpoint
is out of bounds; with `positionOccupied` whenever both endpoints are in
bounds but either is occupied; and otherwise terminates with a path or with
`noPathFound` (the latter exactly when the frontier empties), never with any
other outcome. -/
theorem FindPath_trichotomy (sqrt : ℚ → ℚ) (b : Base) (s e : Position) :
    ((¬ b.IsPositionValid s = true ∨ ¬ b.IsPositionValid e = true) →
      FindPath sqrt b s e = some (Except.error PathError.invalidPosition)) ∧
    (b.IsPositionValid s = true → b.IsPositionValid e = true →
      (b.IsPositionOccupied s = true ∨ b.IsPositionOccupied e = true) →
      FindPath sqrt b s e = some (Except.error PathError.positionOccupied)) ∧
    (b.IsPositionValid s = true → b.IsPositionValid e = true →
      b.IsPositionOccupied s = false → b.IsPositionOccupied e = false →
      (∃ path, FindPath sqrt b s e = some (Except.ok path)) ∨
        FindPath sqrt b s e = some (Except.error PathError.noPathFound)) := by
  refine ⟨?_, ?_, ?_⟩
  · intro h
    unfold FindPath
    rw [if_pos]
    rcases h with h | h <;> simp [h]
  · intro hvs hve h
    unfold FindPath
    rw [if_neg (by simp [hvs, hve]), if_pos]
    rcases h with h | h <;> simp [h]
  · intro hvs hve hos hoe
    unfold FindPath
    rw [if_neg (by simp [hvs, hve]), if_neg (by simp [hos, hoe])]
    have hinv : LoopInv b
        { openList := [s], closed := ∅
          nodes := fun p => if p = s then
            some ⟨0, ManhattanHeuristic s e, none⟩ else none } := by
      refine ⟨List.nodup_singleton s, by simp, ?_, by simp, ?_⟩
      · intro p hp
        rcases List.mem_singleton.mp hp with rfl
        exact hvs
      · intro p hp
        rcases List.mem_singleton.mp hp with rfl
        simp
    have hcard : (validFinset b).card + 1 ≤ searchFuel b +
        (({} : Finset Position)).card := by
      simp only [Finset.card_empty, Nat.add_zero, searchFuel]
      have := card_validFinset b
      omega
    have hne := astarLoop_ne_none sqrt b (searchFuel b) e (searchFuel b) _
      hinv hcard
    cases hres : astarLoop sqrt b (searchFuel b) e (searchFuel b)
        { openList := [s], closed := ∅
          nodes := fun p => if p = s then
            some ⟨0, ManhattanHeuristic s e, none⟩ else none } with
    | none => exact absurd hres hne
    | some r =>
        cases r with
        | ok path => exact Or.inl ⟨path, rfl⟩
        | error ε =>
            have := astarLoop_error sqrt b (searchFuel b) e (searchFuel b) _ ε hres
            subst this
            exact Or.inr rfl

/-- Witness for C7: out-of-bounds endpoints give `invalidPosition`, an
occupied endpoint gives `positionOccupied`, and free endpoints give a path
or `noPathFound` on a concrete base. -/
theorem FindPath_trichotomy_witness :
    FindPath (fun _ => 0) (NewBase 2 1 1) ⟨5, 0, 0⟩ ⟨0, 0, 0⟩ =
      some (Except.error PathError.invalidPosition) ∧
    ((∃ path, FindPath (fun _ => 0) (NewBase 2 1 1) ⟨0, 0, 0⟩ ⟨1, 0, 0⟩ =
        some (Except.ok path)) ∨
      FindPath (fun _ => 0) (NewBase 2 1 1) ⟨0, 0, 0⟩ ⟨1, 0, 0⟩ =
        some (Except.error PathError.noPathFound)) :=
  ⟨(FindPath_trichotomy (fun _ => 0) (NewBase 2 1 1) ⟨5, 0, 0⟩ ⟨0, 0, 0⟩).1
      (Or.inl (by decide)),
    (FindPath_trichotomy (fun _ => 0) (NewBase 2 1 1) ⟨0, 0, 0⟩ ⟨1, 0, 0⟩).2.2
      (by decide) (by decide) (by decide) (by decide)⟩

/-! ## C8: path cost on a base with no obstacle-penalty contribution

The claim's hypothesis — no voxel adjacent to the path is occupied, i.e. no
obstacle-penalty contribution — is formalized as `PenaltyFree`: no free voxel
has an occupied voxel anywhere in its 3×3×3 neighborhood, so every edge the
search can use carries a zero obstacle penalty.  On a bounded box this forces
every valid voxel to be free as soon as one free voxel exists
(`allFree_of_penaltyFree`), and on such a base A* with the Manhattan
heuristic returns a cost-optimal path whose cost is
`|Δx| + |Δz| + (3/2)·|Δy|`. -/

/-- No free voxel has an occupied voxel in its 3×3×3 neighborhood: every
edge usable by the search has zero obstacle-penalty contribution. -/
def PenaltyFree (b : Base) : Prop :=
  ∀ p q : Position, b.IsPositionValid p = true → b.Grid p = false →
    b.IsPositionValid q = true →
    (p.X - q.X).natAbs ≤ 1 → (p.Y - q.Y).natAbs ≤ 1 → (p.Z - q.Z).natAbs ≤ 1 →
    b.Grid q = false

/-- Every valid voxel of the base is unoccupied. -/
def AllFree (b : Base) : Prop :=
  ∀ p : Position, b.IsPositionValid p = true → b.Grid p = false

/-- The exact cost of an optimal path between two voxels of a fully free
box: horizontal steps cost 1, vertical steps cost 3/2. -/
def phi (p q : Position) : ℚ :=
  ((p.X - q.X).natAbs : ℚ) + ((p.Z - q.Z).natAbs : ℚ) +
    (3 / 2) * ((p.Y - q.Y).natAbs : ℚ)

/-- One axis-aligned unit step from `a` towards `c` (x first, then y, then
z), used to build geodesics and connectivity walks inside the box. -/
def stepToward (a c : Position) : Position :=
  if a.X < c.X then ⟨a.X + 1, a.Y, a.Z⟩
  else if c.X < a.X then ⟨a.X - 1, a.Y, a.Z⟩
  else if a.Y < c.Y then ⟨a.X, a.Y + 1, a.Z⟩
  else if c.Y < a.Y then ⟨a.X, a.Y - 1, a.Z⟩
  else if a.Z < c.Z then ⟨a.X, a.Y, a.Z + 1⟩
  else if c.Z < a.Z then ⟨a.X, a.Y, a.Z - 1⟩
  else a

theorem phi_nonneg (p q : Position) : 0 ≤ phi p q := by
  unfold phi
  positivity

theorem phi_self (p : Position) : phi p p = 0 := by
  unfold phi
  simp

theorem phi_triangle (a c d : Position) : phi a d ≤ phi a c + phi c d := by
  unfold phi
  have hx : (a.X - d.X).natAbs ≤ (a.X - c.X).natAbs + (c.X - d.X).natAbs := by
    omega
  have hy : (a.Y - d.Y).natAbs ≤ (a.Y - c.Y).natAbs + (c.Y - d.Y).natAbs := by
    omega
  have hz : (a.Z - d.Z).natAbs ≤ (a.Z - c.Z).natAbs + (c.Z - d.Z).natAbs := by
    omega
  have hx' : ((a.X - d.X).natAbs : ℚ) ≤
      ((a.X - c.X).natAbs : ℚ) + ((c.X - d.X).natAbs : ℚ) := by
    exact_mod_cast hx
  have hy' : ((a.Y - d.Y).natAbs : ℚ) ≤
      ((a.Y - c.Y).natAbs : ℚ) + ((c.Y - d.Y).natAbs : ℚ) := by
    exact_mod_cast hy
  have hz' : ((a.Z - d.Z).natAbs : ℚ) ≤
      ((a.Z - c.Z).natAbs : ℚ) + ((c.Z - d.Z).natAbs : ℚ) := by
    exact_mod_cast hz
  linarith

theorem manhattan_triangle (a c d : Position) :
    ManhattanHeuristic a d ≤ ManhattanHeuristic a c + ManhattanHeuristic c d := by
  unfold ManhattanHeuristic Position.ManhattanDistance
  have h : (a.X - d.X).natAbs + (a.Y - d.Y).natAbs + (a.Z - d.Z).natAbs ≤
      ((a.X - c.X).natAbs + (a.Y - c.Y).natAbs + (a.Z - c.Z).natAbs) +
      ((c.X - d.X).natAbs + (c.Y - d.Y).natAbs + (c.Z - d.Z).natAbs) := by
    omega
  exact_mod_cast h

theorem natAbs_cast_q (n : ℤ) : ((n.natAbs : ℕ) : ℚ) = |(n : ℚ)| := by
  rw [Int.cast_natAbs]
  push_cast
  ring_nf

theorem manhattan_le_phi (a c : Position) : ManhattanHeuristic a c ≤ phi a c := by
  unfold ManhattanHeuristic Position.ManhattanDistance phi
  rw [natAbs_cast_q, natAbs_cast_q, natAbs_cast_q]
  push_cast
  have hy := abs_nonneg ((a.Y : ℚ) - (c.Y : ℚ))
  linarith

theorem manhattan_self (p : Position) : ManhattanHeuristic p p = 0 := by
  unfold ManhattanHeuristic Position.ManhattanDistance
  simp

theorem manhattan_nonneg (p q : Position) : 0 ≤ ManhattanHeuristic p q := by
  unfold ManhattanHeuristic Position.ManhattanDistance
  positivity

/-- Twice `phi`, as a natural number, for omega-friendly reasoning. -/
def phi2 (p q : Position) : ℕ :=
  2 * (p.X - q.X).natAbs + 2 * (p.Z - q.Z).natAbs + 3 * (p.Y - q.Y).natAbs

theorem phi_eq_phi2 (p q : Position) : phi p q = (phi2 p q : ℚ) / 2 := by
  unfold phi phi2
  push_cast
  ring

theorem posX_mk (x y z : ℤ) : (Position.mk x y z).X = x := rfl

theorem posY_mk (x y z : ℤ) : (Position.mk x y z).Y = y := rfl

theorem posZ_mk (x y z : ℤ) : (Position.mk x y z).Z = z := rfl

theorem stepToward_mk (ax ay az cx cy cz : ℤ) :
    stepToward ⟨ax, ay, az⟩ ⟨cx, cy, cz⟩ =
      if ax < cx then ⟨ax + 1, ay, az⟩
      else if cx < ax then ⟨ax - 1, ay, az⟩
      else if ay < cy then ⟨ax, ay + 1, az⟩
      else if cy < ay then ⟨ax, ay - 1, az⟩
      else if az < cz then ⟨ax, ay, az + 1⟩
      else if cz < az then ⟨ax, ay, az - 1⟩
      else ⟨ax, ay, az⟩ := rfl

theorem manhattan_mk (ax ay az cx cy cz : ℤ) :
    Position.ManhattanDistance ⟨ax, ay, az⟩ ⟨cx, cy, cz⟩ =
      ((ax - cx).natAbs : ℤ) + ((ay - cy).natAbs : ℤ) +
        ((az - cz).natAbs : ℤ) := rfl

theorem phi2_mk (ax ay az cx cy cz : ℤ) :
    phi2 ⟨ax, ay, az⟩ ⟨cx, cy, cz⟩ =
      2 * (ax - cx).natAbs + 2 * (az - cz).natAbs + 3 * (ay - cy).natAbs := rfl

theorem valid_mk (b : Base) (x y z : ℤ) :
    b.IsPositionValid ⟨x, y, z⟩ = true ↔
      (0 ≤ x ∧ x < b.Width) ∧ (0 ≤ y ∧ y < b.Height) ∧
        (0 ≤ z ∧ z < b.Depth) := by
  unfold Base.IsPositionValid
  simp only [Bool.and_eq_true, decide_eq_true_eq]
  tauto

theorem stepToward_manhattan {a c : Position} (hne : ¬ a = c) :
    (stepToward a c).ManhattanDistance c + 1 = a.ManhattanDistance c := by
  obtain ⟨ax, ay, az⟩ := a
  obtain ⟨cx, cy, cz⟩ := c
  have hne' : ¬ (ax = cx ∧ ay = cy ∧ az = cz) := by
    intro h
    exact hne (by rw [Position.mk.injEq]; exact h)
  rw [stepToward_mk]
  split_ifs <;> simp only [manhattan_mk] <;> omega

theorem stepToward_cheb (a c : Position) :
    (a.X - (stepToward a c).X).natAbs ≤ 1 ∧
    (a.Y - (stepToward a c).Y).natAbs ≤ 1 ∧
    (a.Z - (stepToward a c).Z).natAbs ≤ 1 := by
  obtain ⟨ax, ay, az⟩ := a
  obtain ⟨cx, cy, cz⟩ := c
  rw [stepToward_mk]
  split_ifs <;> simp only [posX_mk, posY_mk, posZ_mk] <;> omega

theorem stepToward_valid {b : Base} {a c : Position}
    (hva : b.IsPositionValid a = true) (hvc : b.IsPositionValid c = true) :
    b.IsPositionValid (stepToward a c) = true := by
  obtain ⟨ax, ay, az⟩ := a
  obtain ⟨cx, cy, cz⟩ := c
  rw [valid_mk] at hva hvc
  rw [stepToward_mk]
  split_ifs <;> rw [valid_mk] <;> omega

theorem stepToward_phi2 {a c : Position} (hne : ¬ a = c) :
    phi2 a c = (if a.Y = (stepToward a c).Y then 2 else 3) +
      phi2 (stepToward a c) c := by
  obtain ⟨ax, ay, az⟩ := a
  obtain ⟨cx, cy, cz⟩ := c
  have hne' : ¬ (ax = cx ∧ ay = cy ∧ az = cz) := by
    intro h
    exact hne (by rw [Position.mk.injEq]; exact h)
  rw [stepToward_mk]
  split_ifs <;>
    simp only [phi2_mk, posX_mk, posY_mk, posZ_mk] at * <;>
    first
      | omega
      | simp_all
      | (split_ifs <;> omega)

theorem stepToward_phi {a c : Position} (hne : ¬ a = c) :
    phi a c = (if a.Y = (stepToward a c).Y then (1 : ℚ) else 3 / 2) +
      phi (stepToward a c) c := by
  rw [phi_eq_phi2, phi_eq_phi2, stepToward_phi2 hne]
  by_cases hy : a.Y = (stepToward a c).Y
  · rw [if_pos hy, if_pos hy]
    push_cast
    ring
  · rw [if_neg hy, if_neg hy]
    push_cast
    ring

theorem isOccupied_false_of {b : Base} {n : Position}
    (hv : b.IsPositionValid n = true) (hg : b.Grid n = false) :
    b.IsPositionOccupied n = false := by
  unfold Base.IsPositionOccupied
  simp [hv, hg]

theorem mem_GetNeighbors_intro {b : Base} {w n : Position}
    (hd : ∃ dir ∈ directions,
      n = ⟨w.X + dir.X, w.Y + dir.Y, w.Z + dir.Z⟩)
    (hv : b.IsPositionValid n = true) (ho : b.IsPositionOccupied n = false) :
    n ∈ GetNeighbors b w := by
  rcases hd with ⟨dir, hdir, rfl⟩
  unfold GetNeighbors
  refine List.mem_filterMap.mpr ⟨dir, hdir, ?_⟩
  rw [if_pos (by simp [hv, ho])]

theorem stepToward_mem_neighbors {b : Base} {a c : Position}
    (hAF : AllFree b) (hva : b.IsPositionValid a = true)
    (hvc : b.IsPositionValid c = true) (hne : ¬ a = c) :
    stepToward a c ∈ GetNeighbors b a := by
  have hv : b.IsPositionValid (stepToward a c) = true := stepToward_valid hva hvc
  refine mem_GetNeighbors_intro ?_ hv (isOccupied_false_of hv (hAF _ hv))
  obtain ⟨ax, ay, az⟩ := a
  obtain ⟨cx, cy, cz⟩ := c
  have hne' : ¬ (ax = cx ∧ ay = cy ∧ az = cz) := by
    intro h
    exact hne (by rw [Position.mk.injEq]; exact h)
  rw [stepToward_mk]
  split_ifs with h1 h2 h3 h4 h5 h6
  · exact ⟨⟨1, 0, 0⟩, by simp [directions],
      by simp [Position.mk.injEq, posX_mk, posY_mk, posZ_mk] <;> omega⟩
  · exact ⟨⟨-1, 0, 0⟩, by simp [directions],
      by simp [Position.mk.injEq, posX_mk, posY_mk, posZ_mk] <;> omega⟩
  · exact ⟨⟨0, 1, 0⟩, by simp [directions],
      by simp [Position.mk.injEq, posX_mk, posY_mk, posZ_mk] <;> omega⟩
  · exact ⟨⟨0, -1, 0⟩, by simp [directions],
      by simp [Position.mk.injEq, posX_mk, posY_mk, posZ_mk] <;> omega⟩
  · exact ⟨⟨0, 0, 1⟩, by simp [directions],
      by simp [Position.mk.injEq, posX_mk, posY_mk, posZ_mk] <;> omega⟩
  · exact ⟨⟨0, 0, -1⟩, by simp [directions],
      by simp [Position.mk.injEq, posX_mk, posY_mk, posZ_mk] <;> omega⟩
  · exact absurd ⟨by omega, by omega, by omega⟩ hne'

/-- On a box, `PenaltyFree` propagates freeness from any free voxel to every
valid voxel: an occupied voxel would have to sit somewhere, and walking from
the free voxel towards it one axis step at a time stays valid and meets the
occupied region inside some free voxel's 3×3×3 neighborhood. -/
theorem allFree_of_penaltyFree {b : Base} {s : Position}
    (hpf : PenaltyFree b) (hvs : b.IsPositionValid s = true)
    (hfs : b.Grid s = false) : AllFree b := by
  intro p hvp
  suffices h : ∀ (N : ℕ) (a : Position), b.IsPositionValid a = true →
      b.Grid a = false → (a.ManhattanDistance p).toNat ≤ N →
      b.Grid p = false by
    exact h (s.ManhattanDistance p).toNat s hvs hfs le_rfl
  intro N
  induction N with
  | zero =>
      intro a hva hfa hd
      have : a = p := by
        obtain ⟨ax, ay, az⟩ := a
        obtain ⟨px, py, pz⟩ := p
        rw [manhattan_mk] at hd
        rw [Position.mk.injEq]
        omega
      rwa [← this]
  | succ n ih =>
      intro a hva hfa hd
      by_cases hne : a = p
      · rwa [← hne]
      · have hstep := stepToward_manhattan (a := a) (c := p) hne
        have hval : b.IsPositionValid (stepToward a p) = true :=
          stepToward_valid hva hvp
        have hcheb := stepToward_cheb a p
        have hfree : b.Grid (stepToward a p) = false :=
          hpf a (stepToward a p) hva hfa hval hcheb.1 hcheb.2.1 hcheb.2.2
        refine ih (stepToward a p) hval hfree ?_
        have hnn : 0 ≤ (stepToward a p).ManhattanDistance p := by
          unfold Position.ManhattanDistance
          positivity
        omega

theorem obstaclePenalty_zero {sqrt : ℚ → ℚ} {b : Base} (hAF : AllFree b)
    (pos : Position) : CalculateObstaclePenalty sqrt b pos = 0 := by
  unfold CalculateObstaclePenalty
  apply List.sum_eq_zero
  intro x hx
  rcases List.mem_map.mp hx with ⟨off, _, rfl⟩
  have hc : ¬ ((b.IsPositionValid ⟨pos.X + off.1, pos.Y + off.2.1,
      pos.Z + off.2.2⟩ &&
      b.IsPositionOccupied ⟨pos.X + off.1, pos.Y + off.2.1,
        pos.Z + off.2.2⟩) = true) := by
    rw [Bool.and_eq_true]
    rintro ⟨hv, ho⟩
    have hg := hAF _ hv
    rw [isOccupied_false_of hv hg] at ho
    cases ho
  rw [if_neg hc]

theorem GetNeighbors_isStep {b : Base} {w n : Position}
    (h : n ∈ GetNeighbors b w) :
    ∃ dir ∈ directions, n = ⟨w.X + dir.X, w.Y + dir.Y, w.Z + dir.Z⟩ := by
  unfold GetNeighbors at h
  rcases List.mem_filterMap.mp h with ⟨dir, hdir, hd⟩
  by_cases hc : (b.IsPositionValid ⟨w.X + dir.X, w.Y + dir.Y, w.Z + dir.Z⟩ &&
      ! b.IsPositionOccupied ⟨w.X + dir.X, w.Y + dir.Y, w.Z + dir.Z⟩) = true
  · rw [if_pos hc] at hd
    cases hd
    exact ⟨dir, hdir, rfl⟩
  · rw [if_neg hc] at hd
    cases hd

theorem step_sq_one {w n : Position}
    (hd : ∃ dir ∈ directions, n = ⟨w.X + dir.X, w.Y + dir.Y, w.Z + dir.Z⟩) :
    ((w.X - n.X) * (w.X - n.X) + (w.Y - n.Y) * (w.Y - n.Y) +
      (w.Z - n.Z) * (w.Z - n.Z) : ℤ) = 1 := by
  rcases hd with ⟨dir, hdir, rfl⟩
  simp only [directions, List.mem_cons, List.mem_singleton] at hdir
  rcases hdir with rfl | rfl | rfl | rfl | rfl | rfl | h
  · simp only [posX_mk, posY_mk, posZ_mk]; ring
  · simp only [posX_mk, posY_mk, posZ_mk]; ring
  · simp only [posX_mk, posY_mk, posZ_mk]; ring
  · simp only [posX_mk, posY_mk, posZ_mk]; ring
  · simp only [posX_mk, posY_mk, posZ_mk]; ring
  · simp only [posX_mk, posY_mk, posZ_mk]; ring
  · cases h

theorem phi_step {w n : Position}
    (hd : ∃ dir ∈ directions, n = ⟨w.X + dir.X, w.Y + dir.Y, w.Z + dir.Z⟩) :
    phi w n = if w.Y = n.Y then (1 : ℚ) else 3 / 2 := by
  have h2 : phi2 w n = if w.Y = n.Y then 2 else 3 := by
    rcases hd with ⟨dir, hdir, rfl⟩
    simp only [directions, List.mem_cons, List.mem_singleton] at hdir
    rcases hdir with rfl | rfl | rfl | rfl | rfl | rfl | h
    · unfold phi2
      simp only [posX_mk, posY_mk, posZ_mk]
      split_ifs <;> omega
    · unfold phi2
      simp only [posX_mk, posY_mk, posZ_mk]
      split_ifs <;> omega
    · unfold phi2
      simp only [posX_mk, posY_mk, posZ_mk]
      split_ifs <;> omega
    · unfold phi2
      simp only [posX_mk, posY_mk, posZ_mk]
      split_ifs <;> omega
    · unfold phi2
      simp only [posX_mk, posY_mk, posZ_mk]
      split_ifs <;> omega
    · unfold phi2
      simp only [posX_mk, posY_mk, posZ_mk]
      split_ifs <;> omega
    · cases h
  rw [phi_eq_phi2, h2]
  split_ifs <;> norm_num

theorem edgeCost_step {sqrt : ℚ → ℚ} {b : Base} (hsq1 : sqrt 1 = 1)
    (hAF : AllFree b) {w n : Position} (h : n ∈ GetNeighbors b w) :
    CalculateEdgeCost sqrt b w n = if w.Y = n.Y then (1 : ℚ) else 3 / 2 := by
  unfold CalculateEdgeCost Position.Distance
  rw [step_sq_one (GetNeighbors_isStep h)]
  rw [obstaclePenalty_zero hAF]
  show (if w.Y ≠ n.Y then sqrt ((1 : ℤ) : ℚ) * (3 / 2)
    else sqrt ((1 : ℤ) : ℚ)) + 0 = _
  by_cases hy : w.Y = n.Y
  · rw [if_neg (show ¬ (w.Y ≠ n.Y) from fun hc => hc hy), if_pos hy]
    rw [show ((1 : ℤ) : ℚ) = 1 from by norm_num, hsq1]
    ring
  · rw [if_pos hy, if_neg hy]
    rw [show ((1 : ℤ) : ℚ) = 1 from by norm_num, hsq1]
    ring

theorem edgeCost_eq_phi {sqrt : ℚ → ℚ} {b : Base} (hsq1 : sqrt 1 = 1)
    (hAF : AllFree b) {w n : Position} (h : n ∈ GetNeighbors b w) :
    CalculateEdgeCost sqrt b w n = phi w n := by
  rw [edgeCost_step hsq1 hAF h, phi_step (GetNeighbors_isStep h)]

theorem phi_step_ge_one {w n : Position}
    (hd : ∃ dir ∈ directions, n = ⟨w.X + dir.X, w.Y + dir.Y, w.Z + dir.Z⟩) :
    (1 : ℚ) ≤ phi w n := by
  rw [phi_step hd]
  split_ifs <;> norm_num

/-- The A*-optimality invariant of the search loop on an all-free base:
the start node is pinned at cost 0; every known node's cost is at least the
true distance; stored priorities are cost plus heuristic; closed nodes carry
exact distances and are fully relaxed; parent pointers record closed
predecessors with exact cost increments; the goal is never closed. -/
structure OptInv (sqrt : ℚ → ℚ) (b : Base) (start endP : Position)
    (st : SearchState) : Prop where
  basic : LoopInv b st
  startMem : st.nodes start =
    some ⟨0, ManhattanHeuristic start endP, none⟩
  domain : ∀ p, ¬ st.nodes p = none → p ∈ st.openList ∨ p ∈ st.closed
  closedInNodes : ∀ p ∈ st.closed, ¬ st.nodes p = none
  lower : ∀ p info, st.nodes p = some info → phi start p ≤ info.Cost
  prioEq : ∀ p info, st.nodes p = some info →
    info.Priority = info.Cost + ManhattanHeuristic p endP
  closedCorrect : ∀ p ∈ st.closed, ∀ info, st.nodes p = some info →
    info.Cost = phi start p
  closedRelaxed : ∀ p ∈ st.closed, ∀ n ∈ GetNeighbors b p,
    n ∈ st.closed ∨
      ∃ i ip, st.nodes n = some i ∧ st.nodes p = some ip ∧
        i.Cost ≤ ip.Cost + CalculateEdgeCost sqrt b p n
  parentOK : ∀ p info, st.nodes p = some info →
    (info.Parent = none → p = start) ∧
    (∀ par, info.Parent = some par → par ∈ st.closed ∧
      p ∈ GetNeighbors b par ∧
      ∃ ip, st.nodes par = some ip ∧
        info.Cost = ip.Cost + CalculateEdgeCost sqrt b par p)
  endNotClosed : endP ∉ st.closed

/-- While a valid voxel is not closed, the open list contains a node with an
exact cost lying on a geodesic towards that voxel. -/
theorem frontier_lemma {sqrt : ℚ → ℚ} {b : Base} {start endP : Position}
    {st : SearchState} (hsq1 : sqrt 1 = 1) (hAF : AllFree b)
    (hinv : OptInv sqrt b start endP st)
    (hvs : b.IsPositionValid start = true)
    {v : Position} (hvv : b.IsPositionValid v = true) (hv : v ∉ st.closed) :
    ∃ u ∈ st.openList, ∃ iu, st.nodes u = some iu ∧
      iu.Cost = phi start u ∧ phi start u + phi u v = phi start v := by
  have walk : ∀ (N : ℕ) (w : Position), b.IsPositionValid w = true →
      w ∈ st.closed → phi start w + phi w v = phi start v →
      (w.ManhattanDistance v).toNat ≤ N →
      ∃ u ∈ st.openList, ∃ iu, st.nodes u = some iu ∧
        iu.Cost = phi start u ∧ phi start u + phi u v = phi start v := by
    intro N
    induction N with
    | zero =>
        intro w hvw hwc hgeo hd
        exfalso
        have hwv : w = v := by
          obtain ⟨wx, wy, wz⟩ := w
          obtain ⟨vx, vy, vz⟩ := v
          rw [manhattan_mk] at hd
          rw [Position.mk.injEq]
          omega
        rw [hwv] at hwc
        exact hv hwc
    | succ n ih =>
        intro w hvw hwc hgeo hd
        have hne : ¬ w = v := by
          intro hc
          rw [hc] at hwc
          exact hv hwc
        have hvalts : b.IsPositionValid (stepToward w v) = true :=
          stepToward_valid hvw hvv
        have hmem : stepToward w v ∈ GetNeighbors b w :=
          stepToward_mem_neighbors hAF hvw hvv hne
        have hsplit : phi w v = phi w (stepToward w v) +
            phi (stepToward w v) v := by
          have h1 := stepToward_phi hne
          have h2 := phi_step (GetNeighbors_isStep hmem)
          rw [h2, h1]
        have t1 := phi_triangle start (stepToward w v) v
        have t2 := phi_triangle start w (stepToward w v)
        have e1 : phi start (stepToward w v) + phi (stepToward w v) v =
            phi start v := by
          linarith
        have e2 : phi start (stepToward w v) =
            phi start w + phi w (stepToward w v) := by
          linarith
        by_cases hsc : stepToward w v ∈ st.closed
        · refine ih (stepToward w v) hvalts hsc e1 ?_
          have hman := stepToward_manhattan hne
          have hnn : 0 ≤ (stepToward w v).ManhattanDistance v := by
            unfold Position.ManhattanDistance
            positivity
          omega
        · rcases hinv.closedRelaxed w hwc (stepToward w v) hmem with h | h
          · exact absurd h hsc
          · rcases h with ⟨i, ip, hni, hnw, hle⟩
            have hgw : ip.Cost = phi start w :=
              hinv.closedCorrect w hwc ip hnw
            have hcost : CalculateEdgeCost sqrt b w (stepToward w v) =
                phi w (stepToward w v) := edgeCost_eq_phi hsq1 hAF hmem
            have hlow := hinv.lower (stepToward w v) i hni
            have hgs : i.Cost = phi start (stepToward w v) := by
              rw [hcost, hgw] at hle
              linarith
            have hopen : stepToward w v ∈ st.openList := by
              rcases hinv.domain (stepToward w v) (by rw [hni]; simp) with
                h | h
              · exact h
              · exact absurd h hsc
            exact ⟨stepToward w v, hopen, i, hni, hgs, e1⟩
  by_cases hs : start ∈ st.closed
  · refine walk (start.ManhattanDistance v).toNat start hvs hs ?_ le_rfl
    rw [phi_self]
    ring
  · have hmem : start ∈ st.openList := by
      rcases hinv.domain start (by rw [hinv.startMem]; simp) with h | h
      · exact h
      · exact absurd h hs
    refine ⟨start, hmem, _, hinv.startMem, ?_, ?_⟩
    · rw [phi_self]
    · rw [phi_self]
      ring

/-- The node popped by the minimum-priority selection carries the exact
distance from the start. -/
theorem popped_correct {sqrt : ℚ → ℚ} {b : Base} {start endP : Position}
    {st : SearchState} (hsq1 : sqrt 1 = 1) (hAF : AllFree b)
    (hinv : OptInv sqrt b start endP st)
    (hvs : b.IsPositionValid start = true)
    {cur : Position}
    (hsel : selectMin (prioOf st.nodes) st.openList = some cur) :
    ∃ ic, st.nodes cur = some ic ∧ ic.Cost = phi start cur := by
  have hcuro : cur ∈ st.openList := selectMin_mem hsel
  have hvc : b.IsPositionValid cur = true := hinv.basic.openValid cur hcuro
  have hncl : cur ∉ st.closed := hinv.basic.openNotClosed cur hcuro
  have hcurn : ¬ st.nodes cur = none := hinv.basic.openInNodes cur hcuro
  obtain ⟨ic, hic⟩ : ∃ ic, st.nodes cur = some ic := by
    cases hn : st.nodes cur with
    | none => exact absurd hn hcurn
    | some i => exact ⟨i, rfl⟩
  rcases frontier_lemma hsq1 hAF hinv hvs hvc hncl with
    ⟨u, huo, iu, hiu, hgu, hgeo⟩
  have hle0 := selectMin_le hsel u huo
  unfold prioOf at hle0
  rw [hic, hiu] at hle0
  have hle : ic.Priority ≤ iu.Priority := hle0
  have hpc := hinv.prioEq cur ic hic
  have hpu := hinv.prioEq u iu hiu
  rw [hpc, hpu] at hle
  have htri : ManhattanHeuristic u endP ≤
      phi u cur + ManhattanHeuristic cur endP := by
    have t1 := manhattan_triangle u cur endP
    have t2 := manhattan_le_phi u cur
    linarith
  have hlow := hinv.lower cur ic hic
  refine ⟨ic, hic, ?_⟩
  have : ic.Cost ≤ phi start u + phi u cur := by
    rw [hgu] at hle
    linarith
  have : ic.Cost ≤ phi start cur := by
    rw [← hgeo]
    linarith
  linarith

/-- A neighbor `n` of the just-closed node is relaxed: it is closed itself,
or its stored cost is at most the cost through the closed node. -/
def RelaxedAt (sqrt : ℚ → ℚ) (b : Base) (cur : Position) (curCost : ℚ)
    (st : SearchState) (n : Position) : Prop :=
  n ∈ st.closed ∨ ∃ i, st.nodes n = some i ∧
    i.Cost ≤ curCost + CalculateEdgeCost sqrt b cur n

/-- The invariant carried through the relaxation fold: all `OptInv` fields
except that full relaxation is only known for previously closed nodes, plus
the facts that the just-popped `cur` is closed with the frozen entry `ic`. -/
structure RelaxInv (sqrt : ℚ → ℚ) (b : Base) (start endP cur : Position)
    (ic : NodeInfo) (st : SearchState) : Prop where
  basic : LoopInv b st
  startMem : st.nodes start =
    some ⟨0, ManhattanHeuristic start endP, none⟩
  domain : ∀ p, ¬ st.nodes p = none → p ∈ st.openList ∨ p ∈ st.closed
  closedInNodes : ∀ p ∈ st.closed, ¬ st.nodes p = none
  lower : ∀ p info, st.nodes p = some info → phi start p ≤ info.Cost
  prioEq : ∀ p info, st.nodes p = some info →
    info.Priority = info.Cost + ManhattanHeuristic p endP
  closedCorrect : ∀ p ∈ st.closed, ∀ info, st.nodes p = some info →
    info.Cost = phi start p
  relaxedOld : ∀ p ∈ st.closed, ¬ p = cur → ∀ n ∈ GetNeighbors b p,
    n ∈ st.closed ∨
      ∃ i ip, st.nodes n = some i ∧ st.nodes p = some ip ∧
        i.Cost ≤ ip.Cost + CalculateEdgeCost sqrt b p n
  parentOK : ∀ p info, st.nodes p = some info →
    (info.Parent = none → p = start) ∧
    (∀ par, info.Parent = some par → par ∈ st.closed ∧
      p ∈ GetNeighbors b par ∧
      ∃ ip, st.nodes par = some ip ∧
        info.Cost = ip.Cost + CalculateEdgeCost sqrt b par p)
  endNotClosed : endP ∉ st.closed
  curClosed : cur ∈ st.closed
  curNode : st.nodes cur = some ic

theorem relaxNeighbor_skip {sqrt : ℚ → ℚ} {b : Base} {endP cur : Position}
    {curCost : ℚ} {st : SearchState} {npos : Position}
    (h : npos ∈ st.closed) :
    relaxNeighbor sqrt b endP cur curCost st npos = st := by
  unfold relaxNeighbor
  rw [if_pos h]

theorem relaxNeighbor_new {sqrt : ℚ → ℚ} {b : Base} {endP cur : Position}
    {curCost : ℚ} {st : SearchState} {npos : Position}
    (h : ¬ npos ∈ st.closed) (hn : st.nodes npos = none) :
    relaxNeighbor sqrt b endP cur curCost st npos =
      { openList := st.openList ++ [npos]
        closed := st.closed
        nodes := fun p => if p = npos then
          some ⟨curCost + CalculateEdgeCost sqrt b cur npos,
            curCost + CalculateEdgeCost sqrt b cur npos +
              ManhattanHeuristic npos endP, some cur⟩
          else st.nodes p } := by
  unfold relaxNeighbor
  rw [if_neg h, hn]

theorem relaxNeighbor_improve {sqrt : ℚ → ℚ} {b : Base} {endP cur : Position}
    {curCost : ℚ} {st : SearchState} {npos : Position} {info : NodeInfo}
    (h : ¬ npos ∈ st.closed) (hn : st.nodes npos = some info)
    (hlt : curCost + CalculateEdgeCost sqrt b cur npos < info.Cost) :
    relaxNeighbor sqrt b endP cur curCost st npos =
      { openList := st.openList
        closed := st.closed
        nodes := fun p => if p = npos then
          some ⟨curCost + CalculateEdgeCost sqrt b cur npos,
            curCost + CalculateEdgeCost sqrt b cur npos +
              ManhattanHeuristic npos endP, some cur⟩
          else st.nodes p } := by
  unfold relaxNeighbor
  rw [if_neg h, hn]
  show (if curCost + CalculateEdgeCost sqrt b cur npos < info.Cost
      then ({ openList := st.openList
              closed := st.closed
              nodes := fun p => if p = npos then
                some ⟨curCost + CalculateEdgeCost sqrt b cur npos,
                  curCost + CalculateEdgeCost sqrt b cur npos +
                    ManhattanHeuristic npos endP, some cur⟩
                else st.nodes p } : SearchState)
      else st) = _
  rw [if_pos hlt]

theorem relaxNeighbor_keep {sqrt : ℚ → ℚ} {b : Base} {endP cur : Position}
    {curCost : ℚ} {st : SearchState} {npos : Position} {info : NodeInfo}
    (h : ¬ npos ∈ st.closed) (hn : st.nodes npos = some info)
    (hge : ¬ curCost + CalculateEdgeCost sqrt b cur npos < info.Cost) :
    relaxNeighbor sqrt b endP cur curCost st npos = st := by
  unfold relaxNeighbor
  rw [if_neg h, hn]
  show (if curCost + CalculateEdgeCost sqrt b cur npos < info.Cost
      then ({ openList := st.openList
              closed := st.closed
              nodes := fun p => if p = npos then
                some ⟨curCost + CalculateEdgeCost sqrt b cur npos,
                  curCost + CalculateEdgeCost sqrt b cur npos +
                    ManhattanHeuristic npos endP, some cur⟩
                else st.nodes p } : SearchState)
      else st) = st
  rw [if_neg hge]

theorem relax_nodes_some {sqrt : ℚ → ℚ} {b : Base} {endP cur : Position}
    {curCost : ℚ} {st : SearchState} {npos q : Position} {iq : NodeInfo}
    (h : st.nodes q = some iq) :
    ∃ iq', (relaxNeighbor sqrt b endP cur curCost st npos).nodes q =
      some iq' ∧ iq'.Cost ≤ iq.Cost ∧
      (q ∈ st.closed → iq' = iq) := by
  by_cases hc : npos ∈ st.closed
  · rw [relaxNeighbor_skip hc]
    exact ⟨iq, h, le_refl _, fun _ => rfl⟩
  · cases hn : st.nodes npos with
    | none =>
        rw [relaxNeighbor_new hc hn]
        refine ⟨iq, ?_, le_refl _, fun _ => rfl⟩
        show (if q = npos then _ else st.nodes q) = some iq
        rw [if_neg (by rintro rfl; rw [h] at hn; cases hn), h]
    | some info =>
        by_cases hlt : curCost + CalculateEdgeCost sqrt b cur npos < info.Cost
        · rw [relaxNeighbor_improve hc hn hlt]
          by_cases hq : q = npos
          · subst hq
            rw [h] at hn
            cases hn
            refine ⟨⟨curCost + CalculateEdgeCost sqrt b cur q,
              curCost + CalculateEdgeCost sqrt b cur q +
                ManhattanHeuristic q endP, some cur⟩,
              ?_, le_of_lt hlt, fun hcl => absurd hcl hc⟩
            show (if q = q then _ else _) = _
            rw [if_pos rfl]
          · refine ⟨iq, ?_, le_refl _, fun _ => rfl⟩
            show (if q = npos then _ else st.nodes q) = some iq
            rw [if_neg hq, h]
        · rw [relaxNeighbor_keep hc hn hlt]
          exact ⟨iq, h, le_refl _, fun _ => rfl⟩

theorem relaxNeighbor_nodes_back {sqrt : ℚ → ℚ} {b : Base}
    {endP cur : Position} {curCost : ℚ} {st : SearchState} {npos q : Position}
    {iq' : NodeInfo}
    (h : (relaxNeighbor sqrt b endP cur curCost st npos).nodes q = some iq') :
    (st.nodes q = some iq') ∨
      (q = npos ∧ ¬ q ∈ st.closed ∧
        iq' = ⟨curCost + CalculateEdgeCost sqrt b cur npos,
          curCost + CalculateEdgeCost sqrt b cur npos +
            ManhattanHeuristic npos endP, some cur⟩ ∧
        (∀ i0, st.nodes npos = some i0 → iq'.Cost < i0.Cost)) := by
  by_cases hc : npos ∈ st.closed
  · rw [relaxNeighbor_skip hc] at h
    exact Or.inl h
  · cases hn : st.nodes npos with
    | none =>
        rw [relaxNeighbor_new hc hn] at h
        have h2 : (if q = npos then
            some ⟨curCost + CalculateEdgeCost sqrt b cur npos,
              curCost + CalculateEdgeCost sqrt b cur npos +
                ManhattanHeuristic npos endP, some cur⟩
            else st.nodes q) = some iq' := h
        by_cases hq : q = npos
        · subst hq
          rw [if_pos rfl] at h2
          cases h2
          refine Or.inr ⟨rfl, hc, rfl, ?_⟩
          intro i0 hi0
          exact absurd hi0 (by simp)
        · rw [if_neg hq] at h2
          exact Or.inl h2
    | some info =>
        by_cases hlt : curCost + CalculateEdgeCost sqrt b cur npos < info.Cost
        · rw [relaxNeighbor_improve hc hn hlt] at h
          have h2 : (if q = npos then
              some ⟨curCost + CalculateEdgeCost sqrt b cur npos,
                curCost + CalculateEdgeCost sqrt b cur npos +
                  ManhattanHeuristic npos endP, some cur⟩
              else st.nodes q) = some iq' := h
          by_cases hq : q = npos
          · subst hq
            rw [if_pos rfl] at h2
            cases h2
            refine Or.inr ⟨rfl, hc, rfl, ?_⟩
            intro i0 hi0
            injection hi0 with h3
            subst h3
            exact hlt
          · rw [if_neg hq] at h2
            exact Or.inl h2
        · rw [relaxNeighbor_keep hc hn hlt] at h
          exact Or.inl h

theorem relaxedAt_preserved {sqrt : ℚ → ℚ} {b : Base} {endP cur : Position}
    {curCost : ℚ} {st : SearchState} {npos n : Position}
    (h : RelaxedAt sqrt b cur curCost st n) :
    RelaxedAt sqrt b cur curCost
      (relaxNeighbor sqrt b endP cur curCost st npos) n := by
  rcases h with h | ⟨i, hi, hle⟩
  · left
    rwa [relaxNeighbor_closed]
  · have hr : ∃ i',
        (relaxNeighbor sqrt b endP cur curCost st npos).nodes n = some i' ∧
        i'.Cost ≤ i.Cost ∧ (n ∈ st.closed → i' = i) := relax_nodes_some hi
    rcases hr with ⟨i', hi', hle', -⟩
    exact Or.inr ⟨i', hi', le_trans hle' hle⟩

theorem relaxNeighbor_relaxedAt_self {sqrt : ℚ → ℚ} {b : Base}
    {endP cur : Position} {curCost : ℚ} {st : SearchState} {npos : Position} :
    RelaxedAt sqrt b cur curCost
      (relaxNeighbor sqrt b endP cur curCost st npos) npos := by
  unfold RelaxedAt
  by_cases hc : npos ∈ st.closed
  · rw [relaxNeighbor_skip hc]
    exact Or.inl hc
  · cases hn : st.nodes npos with
    | none =>
        rw [relaxNeighbor_new hc hn]
        right
        refine ⟨⟨curCost + CalculateEdgeCost sqrt b cur npos,
          curCost + CalculateEdgeCost sqrt b cur npos +
            ManhattanHeuristic npos endP, some cur⟩, ?_, le_refl _⟩
        show (if npos = npos then _ else _) = _
        rw [if_pos rfl]
    | some info =>
        by_cases hlt : curCost + CalculateEdgeCost sqrt b cur npos < info.Cost
        · rw [relaxNeighbor_improve hc hn hlt]
          right
          refine ⟨⟨curCost + CalculateEdgeCost sqrt b cur npos,
            curCost + CalculateEdgeCost sqrt b cur npos +
              ManhattanHeuristic npos endP, some cur⟩, ?_, le_refl _⟩
          show (if npos = npos then _ else _) = _
          rw [if_pos rfl]
        · rw [relaxNeighbor_keep hc hn hlt]
          exact Or.inr ⟨info, hn, le_of_not_lt hlt⟩

/-- The node table after relaxation created or improved the entry of `npos`
with tentative cost `ic.Cost + edge`. -/
def updNodes (sqrt : ℚ → ℚ) (b : Base) (endP cur : Position) (ic : NodeInfo)
    (st : SearchState) (npos : Position) : Position → Option NodeInfo :=
  fun p => if p = npos then
    some ⟨ic.Cost + CalculateEdgeCost sqrt b cur npos,
      ic.Cost + CalculateEdgeCost sqrt b cur npos +
        ManhattanHeuristic npos endP, some cur⟩
    else st.nodes p

theorem updNodes_self (sqrt : ℚ → ℚ) (b : Base) (endP cur : Position)
    (ic : NodeInfo) (st : SearchState) (npos : Position) :
    updNodes sqrt b endP cur ic st npos npos =
      some ⟨ic.Cost + CalculateEdgeCost sqrt b cur npos,
        ic.Cost + CalculateEdgeCost sqrt b cur npos +
          ManhattanHeuristic npos endP, some cur⟩ := by
  unfold updNodes
  rw [if_pos rfl]

theorem updNodes_other {sqrt : ℚ → ℚ} {b : Base} {endP cur : Position}
    {ic : NodeInfo} {st : SearchState} {npos p : Position}
    (hq : ¬ p = npos) :
    updNodes sqrt b endP cur ic st npos p = st.nodes p := by
  unfold updNodes
  rw [if_neg hq]

theorem relaxInv_update {sqrt : ℚ → ℚ} {b : Base} {start endP cur : Position}
    {ic : NodeInfo} {st : SearchState} {npos : Position} {st' : SearchState}
    (hsq1 : sqrt 1 = 1) (hAF : AllFree b)
    (hnmem : npos ∈ GetNeighbors b cur)
    (hic : ic.Cost = phi start cur)
    (hJ : RelaxInv sqrt b start endP cur ic st)
    (hc : ¬ npos ∈ st.closed)
    (hsne : ¬ start = npos)
    (hub : ∀ i0, st.nodes npos = some i0 →
      ic.Cost + CalculateEdgeCost sqrt b cur npos < i0.Cost)
    (hbasic : LoopInv b st')
    (hclosed : st'.closed = st.closed)
    (hnodes : st'.nodes = updNodes sqrt b endP cur ic st npos)
    (hdom : ∀ p, ¬ st.nodes p = none → p ∈ st'.openList ∨ p ∈ st.closed)
    (hmem2 : npos ∈ st'.openList) :
    RelaxInv sqrt b start endP cur ic st' := by
  have hcne : ¬ cur = npos := fun h => hc (h ▸ hJ.curClosed)
  have hTlow : phi start npos ≤
      ic.Cost + CalculateEdgeCost sqrt b cur npos := by
    have ht := phi_triangle start cur npos
    rw [edgeCost_eq_phi hsq1 hAF hnmem, hic]
    linarith
  refine ⟨hbasic, ?_, ?_, ?_, ?_, ?_, ?_, ?_, ?_, ?_, ?_, ?_⟩
  · rw [hnodes, updNodes_other hsne]
    exact hJ.startMem
  · intro p hp
    rw [hnodes] at hp
    rw [hclosed]
    by_cases hq : p = npos
    · exact Or.inl (by rw [hq]; exact hmem2)
    · rw [updNodes_other hq] at hp
      exact hdom p hp
  · rw [hclosed, hnodes]
    intro p hp
    have hpq : ¬ p = npos := fun h => hc (h ▸ hp)
    rw [updNodes_other hpq]
    exact hJ.closedInNodes p hp
  · rw [hnodes]
    intro p info' h'
    by_cases hq : p = npos
    · rw [hq] at h' ⊢
      rw [updNodes_self] at h'
      injection h' with h2
      subst h2
      exact hTlow
    · rw [updNodes_other hq] at h'
      exact hJ.lower p info' h'
  · rw [hnodes]
    intro p info' h'
    by_cases hq : p = npos
    · rw [hq] at h' ⊢
      rw [updNodes_self] at h'
      injection h' with h2
      subst h2
      rfl
    · rw [updNodes_other hq] at h'
      exact hJ.prioEq p info' h'
  · rw [hclosed, hnodes]
    intro p hp info' h'
    have hpq : ¬ p = npos := fun h => hc (h ▸ hp)
    rw [updNodes_other hpq] at h'
    exact hJ.closedCorrect p hp info' h'
  · rw [hclosed, hnodes]
    intro p hp hpc n hnb
    have hpq : ¬ p = npos := fun h => hc (h ▸ hp)
    rcases hJ.relaxedOld p hp hpc n hnb with h | ⟨i, ip, hni, hnp, hle⟩
    · exact Or.inl h
    · by_cases hnq : n = npos
      · right
        rw [hnq]
        rw [hnq] at hni hle
        refine ⟨_, ip, updNodes_self sqrt b endP cur ic st npos, ?_, ?_⟩
        · rw [updNodes_other hpq]
          exact hnp
        · have h5 := hub i hni
          have h6 : ic.Cost + CalculateEdgeCost sqrt b cur npos ≤
              ip.Cost + CalculateEdgeCost sqrt b p npos :=
            le_trans (le_of_lt h5) hle
          exact h6
      · right
        exact ⟨i, ip, by rw [updNodes_other hnq]; exact hni,
          by rw [updNodes_other hpq]; exact hnp, hle⟩
  · rw [hclosed, hnodes]
    intro p info' h'
    by_cases hq : p = npos
    · rw [hq] at h' ⊢
      rw [updNodes_self] at h'
      injection h' with h2
      subst h2
      constructor
      · intro h0
        exact Option.noConfusion (show some cur = none from h0)
      · intro par hpar
        have h3 : some cur = some par := hpar
        injection h3 with h4
        subst h4
        refine ⟨hJ.curClosed, hnmem, ic, ?_, rfl⟩
        rw [updNodes_other hcne]
        exact hJ.curNode
    · rw [updNodes_other hq] at h'
      have hpo := hJ.parentOK p info' h'
      constructor
      · exact hpo.1
      · intro par hpar
        obtain ⟨hpc2, hpn2, ip, hip, hceq⟩ := hpo.2 par hpar
        have hparq : ¬ par = npos := fun h => hc (h ▸ hpc2)
        exact ⟨hpc2, hpn2, ip, by rw [updNodes_other hparq]; exact hip, hceq⟩
  · rw [hclosed]
    exact hJ.endNotClosed
  · rw [hclosed]
    exact hJ.curClosed
  · rw [hnodes, updNodes_other hcne]
    exact hJ.curNode

theorem relaxNeighbor_relaxInv {sqrt : ℚ → ℚ} {b : Base}
    {start endP cur : Position} {ic : NodeInfo} {st : SearchState}
    {npos : Position}
    (hsq1 : sqrt 1 = 1) (hAF : AllFree b)
    (hnmem : npos ∈ GetNeighbors b cur)
    (hic : ic.Cost = phi start cur)
    (hJ : RelaxInv sqrt b start endP cur ic st) :
    RelaxInv sqrt b start endP cur ic
      (relaxNeighbor sqrt b endP cur ic.Cost st npos) := by
  by_cases hc : npos ∈ st.closed
  · rw [relaxNeighbor_skip hc]
    exact hJ
  · cases hn : st.nodes npos with
    | none =>
        have hsne : ¬ start = npos := by
          intro h
          have h2 := hJ.startMem
          rw [h, hn] at h2
          exact Option.noConfusion h2
        have hub : ∀ i0, st.nodes npos = some i0 →
            ic.Cost + CalculateEdgeCost sqrt b cur npos < i0.Cost := by
          intro i0 h0
          rw [hn] at h0
          exact Option.noConfusion h0
        have hb : LoopInv b (relaxNeighbor sqrt b endP cur ic.Cost st npos) :=
          relaxNeighbor_inv (GetNeighbors_valid hnmem) hJ.basic
        rw [relaxNeighbor_new hc hn] at hb
        rw [relaxNeighbor_new hc hn]
        refine relaxInv_update hsq1 hAF hnmem hic hJ hc hsne hub hb rfl rfl
          ?_ ?_
        · intro p hp
          rcases hJ.domain p hp with h | h
          · exact Or.inl (List.mem_append_left _ h)
          · exact Or.inr h
        · show npos ∈ st.openList ++ [npos]
          exact List.mem_append_right _ (List.mem_singleton.mpr rfl)
    | some info =>
        by_cases hlt : ic.Cost + CalculateEdgeCost sqrt b cur npos < info.Cost
        · have hT0 : 0 < ic.Cost + CalculateEdgeCost sqrt b cur npos := by
            have h1 := phi_nonneg start cur
            have h2 := phi_step_ge_one (GetNeighbors_isStep hnmem)
            rw [edgeCost_eq_phi hsq1 hAF hnmem, hic]
            linarith
          have hsne : ¬ start = npos := by
            intro h
            have h2 := hJ.startMem
            rw [h, hn] at h2
            injection h2 with h3
            rw [h3] at hlt
            have h4 : ic.Cost + CalculateEdgeCost sqrt b cur npos < 0 := hlt
            linarith
          have hub : ∀ i0, st.nodes npos = some i0 →
              ic.Cost + CalculateEdgeCost sqrt b cur npos < i0.Cost := by
            intro i0 h0
            rw [hn] at h0
            injection h0 with h2
            rw [← h2]
            exact hlt
          have hb : LoopInv b
              (relaxNeighbor sqrt b endP cur ic.Cost st npos) :=
            relaxNeighbor_inv (GetNeighbors_valid hnmem) hJ.basic
          rw [relaxNeighbor_improve hc hn hlt] at hb
          rw [relaxNeighbor_improve hc hn hlt]
          refine relaxInv_update hsq1 hAF hnmem hic hJ hc hsne hub hb rfl rfl
            ?_ ?_
          · intro p hp
            exact hJ.domain p hp
          · show npos ∈ st.openList
            rcases hJ.domain npos (by rw [hn]; simp) with h | h
            · exact h
            · exact absurd h hc
        · rw [relaxNeighbor_keep hc hn hlt]
          exact hJ

theorem relaxedAt_foldl {sqrt : ℚ → ℚ} {b : Base} {endP cur : Position}
    {curCost : ℚ} :
    ∀ (l : List Position) (t : SearchState) (n : Position),
      RelaxedAt sqrt b cur curCost t n →
      RelaxedAt sqrt b cur curCost
        (l.foldl (relaxNeighbor sqrt b endP cur curCost) t) n := by
  intro l
  induction l with
  | nil =>
      intro t n h
      exact h
  | cons a rest ih =>
      intro t n h
      exact ih _ n (relaxedAt_preserved h)

theorem expand_relaxInvAux {sqrt : ℚ → ℚ} {b : Base}
    {start endP cur : Position} {ic : NodeInfo}
    (hsq1 : sqrt 1 = 1) (hAF : AllFree b)
    (hic : ic.Cost = phi start cur) :
    ∀ (l : List Position) (t : SearchState),
      (∀ n ∈ l, n ∈ GetNeighbors b cur) →
      RelaxInv sqrt b start endP cur ic t →
      RelaxInv sqrt b start endP cur ic
          (l.foldl (relaxNeighbor sqrt b endP cur ic.Cost) t) ∧
        ∀ n ∈ l, RelaxedAt sqrt b cur ic.Cost
          (l.foldl (relaxNeighbor sqrt b endP cur ic.Cost) t) n := by
  intro l
  induction l with
  | nil =>
      intro t _ hJ
      exact ⟨hJ, fun n hn => absurd hn (List.not_mem_nil n)⟩
  | cons a rest ih =>
      intro t hl hJ
      have ha : a ∈ GetNeighbors b cur := hl a (List.mem_cons_self a rest)
      have hJ1 := relaxNeighbor_relaxInv hsq1 hAF ha hic hJ
      have hrest : ∀ n ∈ rest, n ∈ GetNeighbors b cur :=
        fun n hn => hl n (List.mem_cons_of_mem a hn)
      rcases ih (relaxNeighbor sqrt b endP cur ic.Cost t a) hrest hJ1 with
        ⟨h1, h2⟩
      refine ⟨h1, ?_⟩
      intro n hn
      rcases List.mem_cons.mp hn with h | h
      · rw [h]
        exact relaxedAt_foldl rest _ a relaxNeighbor_relaxedAt_self
      · exact h2 n h

theorem closeState_loopInv {b : Base} {st : SearchState} {cur : Position}
    (hinv : LoopInv b st) (hcur : cur ∈ st.openList) :
    LoopInv b (closeState st cur) := by
  refine ⟨hinv.openNodup.erase cur, ?_, ?_, ?_, ?_⟩
  · intro p hp
    have hpo := (hinv.openNodup.mem_erase_iff).mp hp
    show p ∉ insert cur st.closed
    simp only [Finset.mem_insert]
    push_neg
    exact ⟨hpo.1, hinv.openNotClosed p hpo.2⟩
  · intro p hp
    exact hinv.openValid p ((hinv.openNodup.mem_erase_iff).mp hp).2
  · intro p hp
    have hp' : p ∈ insert cur st.closed := hp
    rcases Finset.mem_insert.mp hp' with rfl | hp2
    · exact hinv.openValid p hcur
    · exact hinv.closedValid p hp2
  · intro p hp
    exact hinv.openInNodes p ((hinv.openNodup.mem_erase_iff).mp hp).2

theorem closeState_relaxInv {sqrt : ℚ → ℚ} {b : Base}
    {start endP : Position} {st : SearchState}
    (hinv : OptInv sqrt b start endP st)
    {cur : Position} {ic : NodeInfo}
    (hic0 : st.nodes cur = some ic) (hgc : ic.Cost = phi start cur)
    (hcuro : cur ∈ st.openList) (hcne : ¬ cur = endP) :
    RelaxInv sqrt b start endP cur ic (closeState st cur) := by
  refine ⟨closeState_loopInv hinv.basic hcuro, hinv.startMem, ?_, ?_,
    hinv.lower, hinv.prioEq, ?_, ?_, ?_, ?_, ?_, hic0⟩
  · intro p hp
    rcases hinv.domain p hp with h | h
    · by_cases hq : p = cur
      · right
        show p ∈ insert cur st.closed
        rw [hq]
        exact Finset.mem_insert_self cur st.closed
      · left
        show p ∈ st.openList.erase cur
        exact (List.mem_erase_of_ne hq).mpr h
    · right
      show p ∈ insert cur st.closed
      exact Finset.mem_insert_of_mem h
  · intro p hp
    have hp' : p ∈ insert cur st.closed := hp
    rcases Finset.mem_insert.mp hp' with rfl | hp2
    · show ¬ st.nodes p = none
      rw [hic0]
      simp
    · exact hinv.closedInNodes p hp2
  · intro p hp info h'
    have hp' : p ∈ insert cur st.closed := hp
    rcases Finset.mem_insert.mp hp' with rfl | hp2
    · have h'' : st.nodes p = some info := h'
      rw [hic0] at h''
      injection h'' with h3
      rw [← h3]
      exact hgc
    · exact hinv.closedCorrect p hp2 info h'
  · intro p hp hpc n hnb
    have hp' : p ∈ insert cur st.closed := hp
    rcases Finset.mem_insert.mp hp' with h | hp2
    · exact absurd h hpc
    · rcases hinv.closedRelaxed p hp2 n hnb with h | ⟨i, ip, hni, hnp, hle⟩
      · left
        show n ∈ insert cur st.closed
        exact Finset.mem_insert_of_mem h
      · exact Or.inr ⟨i, ip, hni, hnp, hle⟩
  · intro p info h'
    have hpo := hinv.parentOK p info h'
    refine ⟨hpo.1, ?_⟩
    intro par hpar
    obtain ⟨hpc2, hpn2, ip, hip, hceq⟩ := hpo.2 par hpar
    refine ⟨?_, hpn2, ip, hip, hceq⟩
    show par ∈ insert cur st.closed
    exact Finset.mem_insert_of_mem hpc2
  · show endP ∉ insert cur st.closed
    intro h
    rcases Finset.mem_insert.mp h with h2 | h2
    · exact hcne h2.symm
    · exact hinv.endNotClosed h2
  · show cur ∈ insert cur st.closed
    exact Finset.mem_insert_self cur st.closed

/-- One pop-and-expand iteration of the A* loop preserves the optimality
invariant when the popped node is not the goal. -/
theorem OptInv_step {sqrt : ℚ → ℚ} {b : Base} {start endP : Position}
    {st : SearchState}
    (hsq1 : sqrt 1 = 1) (hAF : AllFree b)
    (hinv : OptInv sqrt b start endP st)
    (hvs : b.IsPositionValid start = true)
    {cur : Position}
    (hsel : selectMin (prioOf st.nodes) st.openList = some cur)
    (hcne : ¬ cur = endP) :
    OptInv sqrt b start endP
      (expand sqrt b endP cur (curCostOf st.nodes cur)
        (closeState st cur)) := by
  obtain ⟨ic, hic0, hgc⟩ := popped_correct hsq1 hAF hinv hvs hsel
  have hcc : curCostOf st.nodes cur = ic.Cost := by
    unfold curCostOf
    rw [hic0]
  rw [hcc]
  have hcuro : cur ∈ st.openList := selectMin_mem hsel
  have hJ : RelaxInv sqrt b start endP cur ic (closeState st cur) :=
    closeState_relaxInv hinv hic0 hgc hcuro hcne
  have hall : ∀ n ∈ GetNeighbors b cur, n ∈ GetNeighbors b cur :=
    fun n hn => hn
  obtain ⟨hJ', hrel⟩ :=
    expand_relaxInvAux hsq1 hAF hgc (GetNeighbors b cur)
      (closeState st cur) hall hJ
  refine ⟨hJ'.basic, hJ'.startMem, hJ'.domain, hJ'.closedInNodes, hJ'.lower,
    hJ'.prioEq, hJ'.closedCorrect, ?_, hJ'.parentOK, hJ'.endNotClosed⟩
  intro p hp n hn
  by_cases hpq : p = cur
  · rw [hpq] at hn
    rcases hrel n hn with h | ⟨i, hi, hle⟩
    · exact Or.inl h
    · right
      refine ⟨i, ic, hi, ?_, ?_⟩
      · rw [hpq]
        exact hJ'.curNode
      · rw [hpq]
        exact hle
  · exact hJ'.relaxedOld p hp hpq n hn

theorem parentChain_succ_none {nodes : Position → Option NodeInfo} {f : ℕ}
    {p : Position} {ip : NodeInfo}
    (h : nodes p = some ip) (hpar : ip.Parent = none) :
    parentChain nodes (f + 1) p = [p] := by
  have h1 : parentChain nodes (f + 1) p =
      (match nodes p with
       | some info =>
           (match info.Parent with
            | some par => parentChain nodes f par ++ [p]
            | none => [p])
       | none => [p]) := rfl
  rw [h1, h]
  show (match ip.Parent with
        | some par => parentChain nodes f par ++ [p]
        | none => [p]) = [p]
  rw [hpar]

theorem parentChain_succ_some {nodes : Position → Option NodeInfo} {f : ℕ}
    {p par : Position} {ip : NodeInfo}
    (h : nodes p = some ip) (hpar : ip.Parent = some par) :
    parentChain nodes (f + 1) p = parentChain nodes f par ++ [p] := by
  have h1 : parentChain nodes (f + 1) p =
      (match nodes p with
       | some info =>
           (match info.Parent with
            | some q => parentChain nodes f q ++ [p]
            | none => [p])
       | none => [p]) := rfl
  rw [h1, h]
  show (match ip.Parent with
        | some q => parentChain nodes f q ++ [p]
        | none => [p]) = parentChain nodes f par ++ [p]
  rw [hpar]

theorem consecPairs_cons2 (a x : Position) (l : List Position) :
    consecPairs (a :: x :: l) = (a, x) :: consecPairs (x :: l) := rfl

theorem consecPairs_sum_snoc (g : Position → Position → ℚ) :
    ∀ (l : List Position) (q p : Position),
      ((consecPairs ((l ++ [q]) ++ [p])).map (fun e => g e.1 e.2)).sum =
        ((consecPairs (l ++ [q])).map (fun e => g e.1 e.2)).sum + g q p := by
  intro l
  induction l with
  | nil =>
      intro q p
      show (([(q, p)]).map (fun e => g e.1 e.2)).sum =
        (([] : List (Position × Position)).map (fun e => g e.1 e.2)).sum +
          g q p
      simp
  | cons a rest ih =>
      intro q p
      cases hr : rest ++ [q] with
      | nil => exact absurd hr (by simp)
      | cons x xs =>
          have e1 : ((a :: rest) ++ [q]) ++ [p] = a :: x :: (xs ++ [p]) := by
            rw [List.cons_append, List.cons_append, hr]
            rfl
          have e2 : (a :: rest) ++ [q] = a :: x :: xs := by
            rw [List.cons_append, hr]
          rw [e1, e2, consecPairs_cons2, consecPairs_cons2]
          simp only [List.map_cons, List.sum_cons]
          have e3 : x :: (xs ++ [p]) = (rest ++ [q]) ++ [p] := by
            rw [hr]
            rfl
          rw [e3, ih q p]
          have e4 : x :: xs = rest ++ [q] := hr.symm
          rw [e4]
          ring

/-- Re-summing edge costs along the parent chain reproduces the stored cost
of the goal entry: each parent pointer carries its exact cost increment. -/
theorem chain_sum {sqrt : ℚ → ℚ} {b : Base} {start endP : Position}
    {st : SearchState} (hsq1 : sqrt 1 = 1) (hAF : AllFree b)
    (hinv : OptInv sqrt b start endP st) :
    ∀ (f : ℕ) (p : Position) (ip : NodeInfo),
      st.nodes p = some ip → ip.Cost < (f : ℚ) →
      ∃ l, parentChain st.nodes f p = l ++ [p] ∧
        ((consecPairs (parentChain st.nodes f p)).map
          (fun e => CalculateEdgeCost sqrt b e.1 e.2)).sum = ip.Cost := by
  intro f
  induction f with
  | zero =>
      intro p ip h hf
      exfalso
      have h1 := hinv.lower p ip h
      have h2 := phi_nonneg start p
      have h3 : ((0 : ℕ) : ℚ) = 0 := by norm_num
      rw [h3] at hf
      linarith
  | succ n ih =>
      intro p ip h hf
      cases hpar : ip.Parent with
      | none =>
          refine ⟨[], parentChain_succ_none h hpar, ?_⟩
          rw [parentChain_succ_none h hpar]
          have hstart := (hinv.parentOK p ip h).1 hpar
          have h2 : st.nodes p =
              some ⟨0, ManhattanHeuristic start endP, none⟩ := by
            rw [hstart]
            exact hinv.startMem
          rw [h] at h2
          injection h2 with h3
          rw [h3]
          show ((consecPairs [p]).map
            (fun e => CalculateEdgeCost sqrt b e.1 e.2)).sum = (0 : ℚ)
          show (([] : List (Position × Position)).map
            (fun e => CalculateEdgeCost sqrt b e.1 e.2)).sum = (0 : ℚ)
          simp
      | some par =>
          obtain ⟨hpclosed, hpn, ipar, hipar, hceq⟩ :=
            (hinv.parentOK p ip h).2 par hpar
          have hedge1 : (1 : ℚ) ≤ CalculateEdgeCost sqrt b par p := by
            rw [edgeCost_eq_phi hsq1 hAF hpn]
            exact phi_step_ge_one (GetNeighbors_isStep hpn)
          have hfpar : ipar.Cost < (n : ℚ) := by
            push_cast at hf
            push_cast
            linarith
          obtain ⟨l, hl, hsum⟩ := ih par ipar hipar hfpar
          refine ⟨parentChain st.nodes n par,
            parentChain_succ_some h hpar, ?_⟩
          rw [parentChain_succ_some h hpar, hl,
            consecPairs_sum_snoc (fun x y => CalculateEdgeCost sqrt b x y)
              l par p, ← hl, hsum, hceq]

theorem dims_sum_le (a c d : ℕ) (ha : 1 ≤ a) (hc : 1 ≤ c) (hd : 1 ≤ d) :
    a + c + d ≤ a * c * d + 2 := by
  obtain ⟨a2, rfl⟩ : ∃ a2, a = a2 + 1 := ⟨a - 1, by omega⟩
  obtain ⟨c2, rfl⟩ : ∃ c2, c = c2 + 1 := ⟨c - 1, by omega⟩
  obtain ⟨d2, rfl⟩ : ∃ d2, d = d2 + 1 := ⟨d - 1, by omega⟩
  have hexp : (a2 + 1) * (c2 + 1) * (d2 + 1) =
      a2 * c2 * d2 + a2 * c2 + a2 * d2 + c2 * d2 + a2 + c2 + d2 + 1 := by
    ring
  rw [hexp]
  linarith [Nat.zero_le (a2 * c2 * d2), Nat.zero_le (a2 * c2),
    Nat.zero_le (a2 * d2), Nat.zero_le (c2 * d2)]

theorem fuel_bound (wd ht dp x y z : ℕ)
    (hW : 1 ≤ wd) (hH : 1 ≤ ht) (hD : 1 ≤ dp)
    (hx : x + 1 ≤ wd) (hy : y + 1 ≤ ht) (hz : z + 1 ≤ dp) :
    2 * x + 2 * z + 3 * y < 2 * (3 * (wd * ht * dp) + 1) := by
  have hsum := dims_sum_le wd ht dp hW hH hD
  linarith

/-- Any two valid positions are closer (in weighted distance) than the
supplied fuel. -/
theorem phi_lt_searchFuel {b : Base} {s e : Position}
    (hvs : b.IsPositionValid s = true) (hve : b.IsPositionValid e = true) :
    phi s e < ((searchFuel b : ℕ) : ℚ) := by
  obtain ⟨sx, sy, sz⟩ := s
  obtain ⟨ex, ey, ez⟩ := e
  rw [valid_mk] at hvs hve
  rw [phi_eq_phi2, phi2_mk]
  have hW : 1 ≤ b.Width.toNat := by omega
  have hH : 1 ≤ b.Height.toNat := by omega
  have hD : 1 ≤ b.Depth.toNat := by omega
  have hx : (sx - ex).natAbs + 1 ≤ b.Width.toNat := by omega
  have hy : (sy - ey).natAbs + 1 ≤ b.Height.toNat := by omega
  have hz : (sz - ez).natAbs + 1 ≤ b.Depth.toNat := by omega
  have hn : 2 * (sx - ex).natAbs + 2 * (sz - ez).natAbs +
      3 * (sy - ey).natAbs <
      2 * (3 * (b.Width.toNat * b.Height.toNat * b.Depth.toNat) + 1) :=
    fuel_bound _ _ _ _ _ _ hW hH hD hx hy hz
  have hq : ((2 * (sx - ex).natAbs + 2 * (sz - ez).natAbs +
      3 * (sy - ey).natAbs : ℕ) : ℚ) <
      ((2 * (3 * (b.Width.toNat * b.Height.toNat * b.Depth.toNat) + 1 :
        ℕ) : ℚ)) := by
    exact_mod_cast hn
  unfold searchFuel
  push_cast at hq ⊢
  linarith

/-- On an all-free base the A* loop, run with enough fuel from a state
satisfying the optimality invariant, returns a path of cost exactly
`phi start endP`. -/
theorem astarLoop_optimal {sqrt : ℚ → ℚ} {b : Base} {start endP : Position}
    (hsq1 : sqrt 1 = 1) (hAF : AllFree b)
    (hvs : b.IsPositionValid start = true)
    (hve : b.IsPositionValid endP = true)
    {chainFuel : ℕ} (hcf : phi start endP < (chainFuel : ℚ)) :
    ∀ (fuel : ℕ) (st : SearchState), OptInv sqrt b start endP st →
      (validFinset b).card + 1 ≤ fuel + st.closed.card →
      ∃ path, astarLoop sqrt b chainFuel endP fuel st =
        some (Except.ok path) ∧ path.Cost = phi start endP := by
  intro fuel
  induction fuel with
  | zero =>
      intro st hinv hcard
      exfalso
      have hsub : st.closed ⊆ validFinset b := fun p hp =>
        mem_validFinset.mpr (hinv.basic.closedValid p hp)
      have := Finset.card_le_card hsub
      omega
  | succ n ih =>
      intro st hinv hcard
      cases hsel : selectMin (prioOf st.nodes) st.openList with
      | none =>
          exfalso
          obtain ⟨u, hu, -⟩ :=
            frontier_lemma hsq1 hAF hinv hvs hve hinv.endNotClosed
          rw [selectMin_eq_none hsel] at hu
          exact absurd hu (List.not_mem_nil u)
      | some cur =>
          by_cases hend : cur = endP
          · rw [astarLoop_goal sqrt b chainFuel endP n st cur hsel hend]
            refine ⟨ReconstructPath sqrt b st.nodes chainFuel cur, rfl, ?_⟩
            obtain ⟨ic, hic, hgc⟩ := popped_correct hsq1 hAF hinv hvs hsel
            have hlt : ic.Cost < (chainFuel : ℚ) := by
              rw [hgc, hend]
              exact hcf
            obtain ⟨l, hl, hsum⟩ :=
              chain_sum hsq1 hAF hinv chainFuel cur ic hic hlt
            show ((consecPairs (parentChain st.nodes chainFuel cur)).map
              (fun e => CalculateEdgeCost sqrt b e.1 e.2)).sum =
              phi start endP
            rw [hsum, hgc, hend]
          · rw [astarLoop_cont sqrt b chainFuel endP n st cur hsel hend]
            have hcur : cur ∈ st.openList := selectMin_mem hsel
            have hcurclosed : cur ∉ st.closed :=
              hinv.basic.openNotClosed cur hcur
            have hinv' := OptInv_step hsq1 hAF hinv hvs hsel hend
            refine ih _ hinv' ?_
            rw [expand_closed]
            have hcc2 : (closeState st cur).closed = insert cur st.closed :=
              rfl
            rw [hcc2, Finset.card_insert_of_not_mem hcurclosed]
            omega

/-- The seed state of `FindPath` satisfies the optimality invariant. -/
theorem OptInv_init {sqrt : ℚ → ℚ} {b : Base} {s e : Position}
    (hvs : b.IsPositionValid s = true) :
    OptInv sqrt b s e
      { openList := [s]
        closed := ∅
        nodes := fun p => if p = s then
          some ⟨0, ManhattanHeuristic s e, none⟩ else none } := by
  refine ⟨⟨List.nodup_singleton s, ?_, ?_, ?_, ?_⟩, ?_, ?_, ?_, ?_, ?_, ?_,
    ?_, ?_, ?_⟩
  · intro p hp
    exact Finset.not_mem_empty p
  · intro p hp
    rw [List.mem_singleton.mp hp]
    exact hvs
  · intro p hp
    exact absurd hp (Finset.not_mem_empty p)
  · intro p hp
    show ¬ (if p = s then
      some (⟨0, ManhattanHeuristic s e, none⟩ : NodeInfo) else none) = none
    rw [if_pos (List.mem_singleton.mp hp)]
    simp
  · show (if s = s then
      some (⟨0, ManhattanHeuristic s e, none⟩ : NodeInfo) else none) = _
    rw [if_pos rfl]
  · intro p hp
    by_cases hq : p = s
    · exact Or.inl (by rw [hq]; exact List.mem_singleton_self s)
    · exfalso
      have hp' : ¬ (if p = s then
          some (⟨0, ManhattanHeuristic s e, none⟩ : NodeInfo) else none) =
          none := hp
      rw [if_neg hq] at hp'
      exact hp' rfl
  · intro p hp
    exact absurd hp (Finset.not_mem_empty p)
  · intro p info h'
    have h'' : (if p = s then
        some (⟨0, ManhattanHeuristic s e, none⟩ : NodeInfo) else none) =
        some info := h'
    by_cases hq : p = s
    · rw [if_pos hq] at h''
      injection h'' with h3
      rw [hq, ← h3]
      show phi s s ≤ (0 : ℚ)
      rw [phi_self]
    · rw [if_neg hq] at h''
      exact Option.noConfusion h''
  · intro p info h'
    have h'' : (if p = s then
        some (⟨0, ManhattanHeuristic s e, none⟩ : NodeInfo) else none) =
        some info := h'
    by_cases hq : p = s
    · rw [if_pos hq] at h''
      injection h'' with h3
      rw [hq, ← h3]
      show ManhattanHeuristic s e = 0 + ManhattanHeuristic s e
      rw [zero_add]
    · rw [if_neg hq] at h''
      exact Option.noConfusion h''
  · intro p hp
    exact absurd hp (Finset.not_mem_empty p)
  · intro p hp
    exact absurd hp (Finset.not_mem_empty p)
  · intro p info h'
    have h'' : (if p = s then
        some (⟨0, ManhattanHeuristic s e, none⟩ : NodeInfo) else none) =
        some info := h'
    by_cases hq : p = s
    · rw [if_pos hq] at h''
      injection h'' with h3
      constructor
      · intro _
        exact hq
      · intro par hpar
        rw [← h3] at hpar
        exact Option.noConfusion
          (show (none : Option Position) = some par from hpar)
    · rw [if_neg hq] at h''
      exact Option.noConfusion h''
  · exact Finset.not_mem_empty e

theorem phi_eq_manhattan_of_flat {s e : Position} (hy : s.Y = e.Y) :
    phi s e = ManhattanHeuristic s e := by
  unfold phi ManhattanHeuristic Position.ManhattanDistance
  rw [hy, sub_self, Int.natAbs_zero, natAbs_cast_q, natAbs_cast_q]
  push_cast
  ring

/-- **C8.**  On a base with no obstacle-penalty contribution (every voxel
within the 3×3×3 neighbourhood of a free voxel is itself free, i.e. the
reachable region is entirely free) and `math.Sqrt 1 = 1`, `FindPath` between
two free positions succeeds with a path whose Cost is the Manhattan distance
with every horizontal step costing exactly `1.0` and every vertical step
costing exactly `1.5`: `|Δx| + |Δz| + 1.5·|Δy|`; in particular, with no
vertical movement the Cost equals the plain Manhattan distance times the
unit step cost `1.0`. -/
theorem FindPath_flat_cost (sqrt : ℚ → ℚ) (b : Base) (s e : Position)
    (hsq1 : sqrt 1 = 1) (hpf : PenaltyFree b)
    (hvs : b.IsPositionValid s = true) (hfs : b.Grid s = false)
    (hve : b.IsPositionValid e = true) (hfe : b.Grid e = false) :
    ∃ path, FindPath sqrt b s e = some (Except.ok path) ∧
      path.Cost = ((s.X - e.X).natAbs : ℚ) + ((s.Z - e.Z).natAbs : ℚ) +
        (3 / 2) * ((s.Y - e.Y).natAbs : ℚ) ∧
      (s.Y = e.Y → path.Cost = ManhattanHeuristic s e) := by
  have hAF : AllFree b := allFree_of_penaltyFree hpf hvs hfs
  have hocc_s : b.IsPositionOccupied s = false := by
    unfold Base.IsPositionOccupied
    simp [hvs, hfs]
  have hocc_e : b.IsPositionOccupied e = false := by
    unfold Base.IsPositionOccupied
    simp [hve, hfe]
  unfold FindPath
  rw [if_neg (by simp [hvs, hve]), if_neg (by simp [hocc_s, hocc_e])]
  have hcard : (validFinset b).card + 1 ≤ searchFuel b +
      (({} : Finset Position)).card := by
    simp only [Finset.card_empty, Nat.add_zero, searchFuel]
    have := card_validFinset b
    omega
  obtain ⟨path, hres, hcost⟩ :=
    astarLoop_optimal hsq1 hAF hvs hve (phi_lt_searchFuel hvs hve)
      (searchFuel b) _ (OptInv_init hvs) hcard
  refine ⟨path, hres, ?_, ?_⟩
  · rw [hcost]
    rfl
  · intro hy
    rw [hcost, phi_eq_manhattan_of_flat hy]

/-- Witness for C8: on an all-free 2×1×1 base the single horizontal step
from the origin to its neighbour costs exactly `1`. -/
theorem FindPath_flat_cost_witness :
    ∃ path, FindPath (fun q => if q = 1 then 1 else 0) (NewBase 2 1 1)
        ⟨0, 0, 0⟩ ⟨1, 0, 0⟩ = some (Except.ok path) ∧
      path.Cost = 1 := by
  obtain ⟨path, h1, h2, h3⟩ :=
    FindPath_flat_cost (fun q => if q = 1 then 1 else 0) (NewBase 2 1 1)
      ⟨0, 0, 0⟩ ⟨1, 0, 0⟩ (by norm_num)
      (fun p q _ _ _ _ _ _ => rfl)
      (by decide) rfl (by decide) rfl
  refine ⟨path, h1, ?_⟩
  rw [h2]
  norm_num

/-! ## The optimizer package

`OptimizePlacement` manipulates a Go object graph with sharing: the `items`
slice holds pointers to item structs that are mutated in place (by the sort,
by greedy placement and by perturbation), and `Base.Items` maps store those
same pointers, so a base whose map holds a pointer into the slice sees later
mutations of the struct.  The model makes the sharing explicit: the slice is
a list `arr : List Item` of struct values, and an optimizer-side base
(`OBase`) stores per key either an owned struct value (`Slot.owned`, as
produced by `Clone`'s deep copy) or a reference into the slice
(`Slot.shared`, as produced by `PlaceItem(item)` with a slice pointer).
`math.Sqrt`, `math.Exp` and the seeded `rand` stream are inputs of the
model: `sqrt exp : ℚ → ℚ`, an integer stream for `rand.Intn` (its value is
taken modulo the bound) and a rational stream for `rand.Float64`, each with
its own position counter, advanced exactly where the source draws. -/

/-- A value of the Go map `Items` of an optimizer-side base: an owned item
struct or a pointer into the `items` slice. -/
inductive Slot where
  | owned (it : Item)
  | shared (idx : ℕ)
deriving DecidableEq, Repr

/-- Junk element for out-of-range slice reads (never reached: perturbation
indices are taken modulo the slice length). -/
def defaultItem : Item :=
  ⟨"", "", ⟨0, 0, 0⟩, ⟨0, 0, 0⟩, 0, 0⟩

/-- Dereference: an owned slot is its value; a shared slot is the current
value of the slice cell it points into. -/
def resolveSlot (arr : List Item) : Slot → Item
  | Slot.owned it => it
  | Slot.shared idx => arr.getD idx defaultItem

/-- An optimizer-side base: like `Base` but with `Slot`s for map values. -/
structure OBase where
  Width : Int
  Height : Int
  Depth : Int
  Items : List (String × Slot)
  Grid : Position → Bool

/-- Read an `OBase` as a plain `Base` by dereferencing every slot. -/
def OBase.resolve (ob : OBase) (arr : List Item) : Base :=
  { Width := ob.Width, Height := ob.Height, Depth := ob.Depth
    Items := ob.Items.map fun e => (e.1, resolveSlot arr e.2)
    Grid := ob.Grid }

/-- A plain base viewed as an optimizer-side base (all slots owned), as
after `Clone`. -/
def OBase.ofBase (b : Base) : OBase :=
  { Width := b.Width, Height := b.Height, Depth := b.Depth
    Items := b.Items.map fun e => (e.1, Slot.owned e.2)
    Grid := b.Grid }

/-- `Base.Clone` called on an optimizer-side base: the deep copy owns every
item struct at its current value. -/
def OBase.CloneO (ob : OBase) (arr : List Item) : OBase :=
  OBase.ofBase (ob.resolve arr)

/-- Insertion into an `OBase`'s `Items` map (Go map assignment). -/
def insertSlot (l : List (String × Slot)) (id : String) (s : Slot) :
    List (String × Slot) :=
  match l with
  | [] => [(id, s)]
  | e :: tl => if e.1 = id then (id, s) :: tl else e :: insertSlot tl id s

/-- `Base.PlaceItem` invoked with a pointer into the `items` slice (as the
optimizer does): the struct value `item` is the pointee at call time; the
stored map value is the pointer `Slot.shared idx`. -/
def OBase.PlaceItemShared (ob : OBase) (arr : List Item) (idx : ℕ)
    (item : Item) : OBase × Option String :=
  if ¬ (ob.resolve arr).CanPlaceItem item then
    (ob, some ("cannot place item " ++ item.ID))
  else
    ({ ob with
        Grid := fun p => ob.Grid p || decide (p ∈ item.GetOccupiedPositions)
        Items := insertSlot ob.Items item.ID (Slot.shared idx) },
     none)

/-- `Base.RemoveItem` on an optimizer-side base: the footprint unmarked is
that of the dereferenced stored entry. -/
def OBase.RemoveItemO (ob : OBase) (arr : List Item) (itemID : String) :
    OBase × Option String :=
  match ob.Items.find? (fun e => e.1 = itemID) with
  | none => (ob, some ("item " ++ itemID ++ " not found"))
  | some (_, slot) =>
      let item := resolveSlot arr slot
      ({ ob with
          Grid := fun p => ob.Grid p && ! decide (p ∈ item.GetOccupiedPositions)
          Items := ob.Items.filter fun e => ¬ e.1 = itemID },
       none)

/-- `optimizer.OptimizationConfig`. -/
structure OptimizationConfig where
  MaxIterations : Int
  Temperature : ℚ
  CoolingRate : ℚ
  MinTemperature : ℚ
  RandomSeed : Int
  PathfindingWeight : ℚ
  EfficiencyWeight : ℚ
  CompactnessWeight : ℚ

/-- `optimizer.PlacementScore`.  The `Details` map holds exactly the three
component scores under fixed keys and is represented by the three component
fields themselves. -/
structure PlacementScore where
  TotalScore : ℚ
  PathfindingScore : ℚ
  EfficiencyScore : ℚ
  CompactnessScore : ℚ
deriving DecidableEq, Repr

/-- `optimizer.getRelatedItemTypes`, as the membership predicate of the
returned set. -/
def getRelatedItemTypes (itemType : ItemType) (t : ItemType) : Bool :=
  if itemType = ItemTypeFoodBox then
    t = ItemTypeFoodPlot || t = ItemTypeCookingPot
  else if itemType = ItemTypeFoodPlot then
    t = ItemTypeFoodBox || t = ItemTypeCookingPot
  else if itemType = ItemTypePowerGenerator then
    t = ItemTypeAccumulator || t = ItemTypeWorkbench
  else if itemType = ItemTypeWorkbench then
    t = ItemTypePowerGenerator || t = ItemTypeStorage
  else if itemType = ItemTypeStorage then
    t = ItemTypeWorkbench || t = ItemTypeFurnace
  else false

/-- `optimizer.evaluateProximityToRelatedItems`. -/
def evaluateProximityToRelatedItems (sqrt : ℚ → ℚ) (base : Base)
    (item : Item) : ℚ :=
  base.Items.foldl (fun score e =>
    if getRelatedItemTypes item.Type' e.2.Type' then
      score + 10 / (1 + item.Position.Distance sqrt e.2.Position)
    else score) 0

/-- `optimizer.calculateIsolationPenalty` (a stub in the source). -/
def calculateIsolationPenalty (base : Base) (item : Item) : ℚ := 0

/-- `optimizer.calculateBlockingPenalty`.  Paths run on `po.Graph.Base`
(`graphBase`), which the annealing loop leaves pointing at the post-greedy
base object.  A fuel-exhausted search (`none`, proven impossible for the
supplied fuel) is mapped to the error branch. -/
def calculateBlockingPenalty (sqrt : ℚ → ℚ) (graphBase base : Base)
    (item : Item) : ℚ :=
  base.Items.foldl (fun penalty e =>
    if e.2.Type' = ItemTypePalbox then
      match FindPath sqrt graphBase item.Position e.2.Position with
      | some (Except.ok path) => penalty + path.Cost * (1 / 10)
      | some (Except.error _) => penalty + 50
      | none => penalty + 50
    else penalty) 0

/-- `optimizer.evaluatePathAccessibility`. -/
def evaluatePathAccessibility (sqrt : ℚ → ℚ) (graphBase base : Base)
    (item : Item) : ℚ :=
  0 - calculateIsolationPenalty base item
    - calculateBlockingPenalty sqrt graphBase base item

/-- `optimizer.evaluateItemPosition` (the `/` on `Int` truncates towards
zero, as Go's integer division does on the non-negative dimensions). -/
def evaluateItemPosition (sqrt : ℚ → ℚ) (graphBase base : Base)
    (item : Item) : ℚ :=
  (if item.Type' = ItemTypePalbox then
    100 / (1 + item.Position.Distance sqrt ⟨base.Width / 2, 0, base.Depth / 2⟩)
  else 0)
  + evaluateProximityToRelatedItems sqrt base item
  + evaluatePathAccessibility sqrt graphBase base item

/-- The probe item built by `findBestPosition` for a candidate position. -/
def mkTestItem (item : Item) (pos : Position) : Item :=
  ⟨item.ID, item.Type', pos, item.Bounds, item.Rotation, item.Priority⟩

/-- The loop body of `optimizer.findBestPosition`: keep the running best
`(position, score)` pair, replacing it exactly on a strict improvement. -/
def fbpStep (sqrt : ℚ → ℚ) (graphBase base : Base) (item : Item)
    (best : Option (Position × ℚ)) (pos : Position) :
    Option (Position × ℚ) :=
  if base.CanPlaceItem (mkTestItem item pos) then
    match best with
    | none =>
        some (pos, evaluateItemPosition sqrt graphBase base
          (mkTestItem item pos))
    | some bp =>
        if evaluateItemPosition sqrt graphBase base (mkTestItem item pos) >
            bp.2 then
          some (pos, evaluateItemPosition sqrt graphBase base
            (mkTestItem item pos))
        else best
  else best

/-- `optimizer.findBestPosition`: first strict argmax of
`evaluateItemPosition` over the free positions whose footprint fits
(`bestScore` starts at `-Inf`, so the first placeable position always
enters; per-iteration loop variables as in current Go). -/
def findBestPosition (sqrt : ℚ → ℚ) (graphBase base : Base) (item : Item) :
    Option Position :=
  (base.GetFreePositions.foldl (fbpStep sqrt graphBase base item) none).map
    fun bp => bp.1

/-- One step of `optimizer.placeItemsGreedy` for the slice index `i`:
position the item at `findBestPosition`'s choice and place the slice
pointer, or skip when no position fits. -/
def greedyStep (sqrt : ℚ → ℚ) (st : List Item × OBase) (i : ℕ) :
    List Item × OBase :=
  match findBestPosition sqrt (st.2.resolve st.1) (st.2.resolve st.1)
      (st.1.getD i defaultItem) with
  | some pos =>
      (st.1.set i (mkTestItem (st.1.getD i defaultItem) pos),
       (st.2.PlaceItemShared st.1 i
         (mkTestItem (st.1.getD i defaultItem) pos)).1)
  | none => st

/-- `optimizer.placeItemsGreedy`: process the sorted slice in order; each
placed entry is the slice pointer.  During greedy placement `po.Graph.Base`
is the very base being filled, so paths run on the current state. -/
def placeItemsGreedy (sqrt : ℚ → ℚ) (arr0 : List Item) (ob0 : OBase) :
    List Item × OBase :=
  (List.range arr0.length).foldl (greedyStep sqrt) (arr0, ob0)

/-- `optimizer.perturbPlacement` for a drawn index `k` (the empty-slice
guard and the draw live in the loop step, which advances the stream). -/
def perturbPlacement (sqrt : ℚ → ℚ) (graphBase : Base) (k : ℕ)
    (arr : List Item) (ob : OBase) : List Item × OBase :=
  let item := arr.getD k defaultItem
  let ob1 := (ob.RemoveItemO arr item.ID).1
  match findBestPosition sqrt graphBase (ob1.resolve arr) item with
  | some pos =>
      let item' := mkTestItem item pos
      (arr.set k item', (ob1.PlaceItemShared arr k item').1)
  | none => (arr, ob1)

/-- `optimizer.shouldAccept`, with the `rand.Float64()` draw `u` passed in
(it is consumed only on the non-strict branch). -/
def shouldAccept (exp : ℚ → ℚ)
    (currentScore candidateScore temperature u : ℚ) : Bool :=
  if candidateScore > currentScore then true
  else decide (u < exp ((candidateScore - currentScore) / temperature))

/-- `optimizer.evaluatePathfinding`: the hub is the first Palbox in the
`Items` map's iteration order (the list order of the model). -/
def evaluatePathfinding (sqrt : ℚ → ℚ) (graphBase base : Base) : ℚ :=
  match base.Items.find? (fun e => e.2.Type' = ItemTypePalbox) with
  | none => 0
  | some pb =>
      base.Items.foldl (fun score e =>
        if e.2.ID = pb.2.ID then score
        else match FindPath sqrt graphBase pb.2.Position e.2.Position with
          | some (Except.ok path) => score + 100 / (1 + path.Cost)
          | some (Except.error _) => score - 50
          | none => score - 50) 0

/-- `optimizer.evaluateEfficiency`: ordered related pairs of distinct IDs. -/
def evaluateEfficiency (sqrt : ℚ → ℚ) (base : Base) : ℚ :=
  base.Items.foldl (fun score e =>
    base.Items.foldl (fun score2 e2 =>
      if e.2.ID = e2.2.ID then score2
      else if getRelatedItemTypes e.2.Type' e2.2.Type' then
        score2 + 20 / (1 + e.2.Position.Distance sqrt e2.2.Position)
      else score2) score) 0

/-- `optimizer.evaluateCompactness`: bounding box of all footprints (with no
footprint voxel, the `±Inf` initial bounds make the volume non-positive and
the result `0`). -/
def evaluateCompactness (base : Base) : ℚ :=
  match base.Items.flatMap (fun e => e.2.GetOccupiedPositions) with
  | [] => 0
  | p :: rest =>
      let minX := rest.foldl (fun m q => min m q.X) p.X
      let maxX := rest.foldl (fun m q => max m q.X) p.X
      let minY := rest.foldl (fun m q => min m q.Y) p.Y
      let maxY := rest.foldl (fun m q => max m q.Y) p.Y
      let minZ := rest.foldl (fun m q => min m q.Z) p.Z
      let maxZ := rest.foldl (fun m q => max m q.Z) p.Z
      let volume : ℚ := ((maxX - minX : ℤ) : ℚ) * ((maxY - minY : ℤ) : ℚ) *
        ((maxZ - minZ : ℤ) : ℚ)
      let totalItemVolume : ℚ :=
        base.Items.foldl (fun s e => s + ((e.2.Bounds.Volume : ℤ) : ℚ)) 0
      if volume > 0 then totalItemVolume / volume else 0

/-- `optimizer.evaluatePlacement` (its `items` argument is unused in the
source; the scores read `base.Items`). -/
def evaluatePlacement (sqrt : ℚ → ℚ) (graphBase : Base)
    (config : OptimizationConfig) (base : Base) : PlacementScore :=
  let pathfindingScore := evaluatePathfinding sqrt graphBase base
  let efficiencyScore := evaluateEfficiency sqrt base
  let compactnessScore := evaluateCompactness base
  { TotalScore := config.PathfindingWeight * pathfindingScore +
      config.EfficiencyWeight * efficiencyScore +
      config.CompactnessWeight * compactnessScore
    PathfindingScore := pathfindingScore
    EfficiencyScore := efficiencyScore
    CompactnessScore := compactnessScore }

/-- The state of the annealing loop: the `items` slice, the current base
object, the best clone and score, the temperature, and the two stream
counters. -/
structure LoopSt where
  arr : List Item
  ob : OBase
  bestBase : Base
  bestScore : PlacementScore
  temp : ℚ
  ic : ℕ
  fc : ℕ

/-- The candidate construction at the head of each annealing iteration:
clone the current base and perturb it (the empty-slice guard of
`perturbPlacement` skips the draw and the perturbation). -/
def iterCandidate (sqrt : ℚ → ℚ) (intStream : ℕ → ℕ) (graphBase : Base)
    (s : LoopSt) : List Item × OBase :=
  if s.arr.length = 0 then (s.arr, s.ob.CloneO s.arr)
  else perturbPlacement sqrt graphBase (intStream s.ic % s.arr.length)
    s.arr (s.ob.CloneO s.arr)

/-- One iteration of the annealing loop of `OptimizePlacement` (clone,
perturb, evaluate, accept against the best score, cool). -/
def annealStep (sqrt exp : ℚ → ℚ) (intStream : ℕ → ℕ)
    (floatStream : ℕ → ℚ) (graphBase : Base) (config : OptimizationConfig)
    (s : LoopSt) : LoopSt :=
  let ac := iterCandidate sqrt intStream graphBase s
  let arr1 := ac.1
  let cand := ac.2
  let ic1 := if s.arr.length = 0 then s.ic else s.ic + 1
  let candScore := evaluatePlacement sqrt graphBase config (cand.resolve arr1)
  let u := floatStream s.fc
  let fc1 := if candScore.TotalScore > s.bestScore.TotalScore then s.fc
    else s.fc + 1
  let acc := shouldAccept exp s.bestScore.TotalScore candScore.TotalScore
    s.temp u
  let nxt :=
    if acc then
      (cand,
       if candScore.TotalScore > s.bestScore.TotalScore then
        cand.resolve arr1 else s.bestBase,
       if candScore.TotalScore > s.bestScore.TotalScore then
        candScore else s.bestScore)
    else (s.ob, s.bestBase, s.bestScore)
  { arr := arr1, ob := nxt.1, bestBase := nxt.2.1, bestScore := nxt.2.2
    temp := s.temp * config.CoolingRate, ic := ic1, fc := fc1 }

/-- The annealing loop: at most `MaxIterations` iterations, breaking after
any iteration that cools below `MinTemperature`. -/
def annealLoop (sqrt exp : ℚ → ℚ) (intStream : ℕ → ℕ)
    (floatStream : ℕ → ℚ) (graphBase : Base) (config : OptimizationConfig) :
    ℕ → LoopSt → LoopSt
  | 0, s => s
  | fuel + 1, s =>
      let s' := annealStep sqrt exp intStream floatStream graphBase config s
      if s'.temp < config.MinTemperature then s'
      else annealLoop sqrt exp intStream floatStream graphBase config fuel s'

/-- Insertion into a priority-descending sorted list, before the first
element of strictly smaller priority (so that equal priorities keep their
original relative order). -/
def insertByPriority (it : Item) : List Item → List Item
  | [] => [it]
  | a :: tl =>
      if a.Priority ≤ it.Priority then it :: a :: tl
      else a :: insertByPriority it tl

/-- The sort of `OptimizePlacement`: `sort.Slice` with the comparator
`items[i].Priority > items[j].Priority`, modelled by a stable insertion
sort (the source's sort is unspecified on ties; the claims do not involve
ties). -/
def sortByPriority : List Item → List Item
  | [] => []
  | a :: tl => insertByPriority a (sortByPriority tl)

/-- `optimizer.OptimizePlacement` (with a non-nil config, as the claims
supply one).  `po.Graph.Base` is set to the clone being filled, so after
greedy placement the graph base is frozen at the post-greedy object, which
later iterations never mutate.  The `po.Graph.BuildGraph()` call only
rebuilds the `Nodes`/`Edges` maps, which `Graph.FindPath` never reads, so
it has no observable effect here.  The returned `error` is always nil in
the source and is omitted. -/
def OptimizePlacement (sqrt exp : ℚ → ℚ) (intStream : ℕ → ℕ)
    (floatStream : ℕ → ℚ) (base0 : Base) (items0 : List Item)
    (config : OptimizationConfig) : Base × PlacementScore :=
  let items1 := sortByPriority items0
  let ob0 := OBase.ofBase base0.Clone
  let greedy := placeItemsGreedy sqrt items1 ob0
  let arr1 := greedy.1
  let ob1 := greedy.2
  let graphBase := ob1.resolve arr1
  let bestBase0 := ob1.resolve arr1
  let bestScore0 := evaluatePlacement sqrt graphBase config
    (ob1.resolve arr1)
  let s0 : LoopSt :=
    ⟨arr1, ob1, bestBase0, bestScore0, config.Temperature, 0, 0⟩
  let sF := annealLoop sqrt exp intStream floatStream graphBase config
    config.MaxIterations.toNat s0
  (sF.bestBase, sF.bestScore)

theorem annealStep_best_mono (sqrt exp : ℚ → ℚ) (intStream : ℕ → ℕ)
    (floatStream : ℕ → ℚ) (graphBase : Base) (config : OptimizationConfig)
    (s : LoopSt) :
    s.bestScore.TotalScore ≤
      (annealStep sqrt exp intStream floatStream graphBase config
        s).bestScore.TotalScore := by
  dsimp only [annealStep]
  split_ifs with h1 h2 <;>
    first
      | exact le_refl _
      | linarith

/-- **C4.**  Over any number of iterations of the annealing loop, the
recorded best score never decreases: the best is replaced only by a
candidate whose total score is strictly greater. -/
theorem anneal_best_monotone (sqrt exp : ℚ → ℚ) (intStream : ℕ → ℕ)
    (floatStream : ℕ → ℚ) (graphBase : Base) (config : OptimizationConfig) :
    ∀ (fuel : ℕ) (s : LoopSt),
      s.bestScore.TotalScore ≤
        (annealLoop sqrt exp intStream floatStream graphBase config fuel
          s).bestScore.TotalScore := by
  intro fuel
  induction fuel with
  | zero =>
      intro s
      exact le_refl _
  | succ n ih =>
      intro s
      have h1 := annealStep_best_mono sqrt exp intStream floatStream
        graphBase config s
      have e : annealLoop sqrt exp intStream floatStream graphBase config
          (n + 1) s =
          (if (annealStep sqrt exp intStream floatStream graphBase config
              s).temp < config.MinTemperature then
            annealStep sqrt exp intStream floatStream graphBase config s
          else annealLoop sqrt exp intStream floatStream graphBase config n
            (annealStep sqrt exp intStream floatStream graphBase config s)) :=
        rfl
      rw [e]
      by_cases hbr : (annealStep sqrt exp intStream floatStream graphBase
          config s).temp < config.MinTemperature
      · rw [if_pos hbr]
        exact h1
      · rw [if_neg hbr]
        exact le_trans h1
          (ih (annealStep sqrt exp intStream floatStream graphBase config s))

/-- The desirability score of a candidate position, as probed by
`findBestPosition`. -/
def fbpScore (sqrt : ℚ → ℚ) (graphBase base : Base) (item : Item)
    (pos : Position) : ℚ :=
  evaluateItemPosition sqrt graphBase base (mkTestItem item pos)

theorem fbpStep_skip {sqrt : ℚ → ℚ} {graphBase base : Base} {item : Item}
    {best : Option (Position × ℚ)} {pos : Position}
    (h : base.CanPlaceItem (mkTestItem item pos) = false) :
    fbpStep sqrt graphBase base item best pos = best := by
  unfold fbpStep
  rw [h]
  simp

theorem fbpStep_none {sqrt : ℚ → ℚ} {graphBase base : Base} {item : Item}
    {pos : Position}
    (h : base.CanPlaceItem (mkTestItem item pos) = true) :
    fbpStep sqrt graphBase base item none pos =
      some (pos, fbpScore sqrt graphBase base item pos) := by
  unfold fbpStep fbpScore
  rw [if_pos h]

theorem fbpStep_some_improve {sqrt : ℚ → ℚ} {graphBase base : Base}
    {item : Item} {p0 : Position} {s0 : ℚ} {pos : Position}
    (h : base.CanPlaceItem (mkTestItem item pos) = true)
    (hlt : fbpScore sqrt graphBase base item pos > s0) :
    fbpStep sqrt graphBase base item (some (p0, s0)) pos =
      some (pos, fbpScore sqrt graphBase base item pos) := by
  unfold fbpStep fbpScore
  rw [if_pos h]
  show (if evaluateItemPosition sqrt graphBase base (mkTestItem item pos) >
      s0 then
        some (pos, evaluateItemPosition sqrt graphBase base
          (mkTestItem item pos))
      else some (p0, s0)) = _
  have hlt' : evaluateItemPosition sqrt graphBase base
      (mkTestItem item pos) > s0 := hlt
  rw [if_pos hlt']

theorem fbpStep_some_keep {sqrt : ℚ → ℚ} {graphBase base : Base}
    {item : Item} {p0 : Position} {s0 : ℚ} {pos : Position}
    (h : base.CanPlaceItem (mkTestItem item pos) = true)
    (hge : ¬ fbpScore sqrt graphBase base item pos > s0) :
    fbpStep sqrt graphBase base item (some (p0, s0)) pos = some (p0, s0) := by
  unfold fbpStep
  rw [if_pos h]
  show (if evaluateItemPosition sqrt graphBase base (mkTestItem item pos) >
      s0 then
        some (pos, evaluateItemPosition sqrt graphBase base
          (mkTestItem item pos))
      else some (p0, s0)) = _
  have hge' : ¬ evaluateItemPosition sqrt graphBase base
      (mkTestItem item pos) > s0 := hge
  rw [if_neg hge']

theorem fbp_fold_form (sqrt : ℚ → ℚ) (graphBase base : Base) (item : Item) :
    ∀ (l : List Position) (acc : Option (Position × ℚ)),
      l.foldl (fbpStep sqrt graphBase base item) acc = acc ∨
      ∃ p ∈ l, base.CanPlaceItem (mkTestItem item p) = true ∧
        l.foldl (fbpStep sqrt graphBase base item) acc =
          some (p, fbpScore sqrt graphBase base item p) := by
  intro l
  induction l with
  | nil =>
      intro acc
      exact Or.inl rfl
  | cons a rest ih =>
      intro acc
      have hstep : fbpStep sqrt graphBase base item acc a = acc ∨
          (base.CanPlaceItem (mkTestItem item a) = true ∧
            fbpStep sqrt graphBase base item acc a =
              some (a, fbpScore sqrt graphBase base item a)) := by
        cases hc : base.CanPlaceItem (mkTestItem item a) with
        | false => exact Or.inl (fbpStep_skip hc)
        | true =>
            cases acc with
            | none => exact Or.inr ⟨rfl, fbpStep_none hc⟩
            | some bp =>
                obtain ⟨p0, s0⟩ := bp
                by_cases hlt : fbpScore sqrt graphBase base item a > s0
                · exact Or.inr ⟨rfl, fbpStep_some_improve hc hlt⟩
                · exact Or.inl (fbpStep_some_keep hc hlt)
      rcases ih (fbpStep sqrt graphBase base item acc a) with h1 | ⟨p, hp, hcp, heq⟩
      · rcases hstep with h2 | ⟨hc, h2⟩
        · refine Or.inl ?_
          show rest.foldl (fbpStep sqrt graphBase base item)
            (fbpStep sqrt graphBase base item acc a) = acc
          rw [h1, h2]
        · refine Or.inr ⟨a, List.mem_cons_self a rest, hc, ?_⟩
          show rest.foldl (fbpStep sqrt graphBase base item)
            (fbpStep sqrt graphBase base item acc a) = _
          rw [h1, h2]
      · exact Or.inr ⟨p, List.mem_cons_of_mem a hp, hcp, heq⟩

theorem fbp_fold_bounds (sqrt : ℚ → ℚ) (graphBase base : Base)
    (item : Item) :
    ∀ (l : List Position) (acc : Option (Position × ℚ)) (p : Position)
      (s : ℚ),
      l.foldl (fbpStep sqrt graphBase base item) acc = some (p, s) →
      (∀ q ∈ l, base.CanPlaceItem (mkTestItem item q) = true →
        fbpScore sqrt graphBase base item q ≤ s) ∧
      (∀ p0 s0, acc = some (p0, s0) → s0 ≤ s) := by
  intro l
  induction l with
  | nil =>
      intro acc p s h
      constructor
      · intro q hq
        exact absurd hq (List.not_mem_nil q)
      · intro p0 s0 h0
        have h' : acc = some (p, s) := h
        rw [h0] at h'
        injection h' with h2
        have h3 : s0 = s := congrArg Prod.snd h2
        exact le_of_eq h3
  | cons a rest ih =>
      intro acc p s h
      have h' : rest.foldl (fbpStep sqrt graphBase base item)
          (fbpStep sqrt graphBase base item acc a) = some (p, s) := h
      obtain ⟨hl, hacc⟩ := ih (fbpStep sqrt graphBase base item acc a) p s h'
      constructor
      · intro q hq hcq
        rcases List.mem_cons.mp hq with rfl | hq2
        · have hA : ∃ p1 s1,
              fbpStep sqrt graphBase base item acc q = some (p1, s1) ∧
              fbpScore sqrt graphBase base item q ≤ s1 := by
            cases acc with
            | none => exact ⟨q, _, fbpStep_none hcq, le_refl _⟩
            | some bp =>
                obtain ⟨p0, s0⟩ := bp
                by_cases hlt : fbpScore sqrt graphBase base item q > s0
                · exact ⟨q, _, fbpStep_some_improve hcq hlt, le_refl _⟩
                · exact ⟨p0, s0, fbpStep_some_keep hcq hlt, le_of_not_lt hlt⟩
          obtain ⟨p1, s1, he, hle⟩ := hA
          exact le_trans hle (hacc p1 s1 he)
        · exact hl q hq2 hcq
      · intro p0 s0 h0
        have hB : ∃ p1 s1,
            fbpStep sqrt graphBase base item acc a = some (p1, s1) ∧
            s0 ≤ s1 := by
          rw [h0]
          cases hc : base.CanPlaceItem (mkTestItem item a) with
          | false => exact ⟨p0, s0, fbpStep_skip hc, le_refl _⟩
          | true =>
              by_cases hlt : fbpScore sqrt graphBase base item a > s0
              · exact ⟨a, _, fbpStep_some_improve hc hlt, le_of_lt hlt⟩
              · exact ⟨p0, s0, fbpStep_some_keep hc hlt, le_refl _⟩
        obtain ⟨p1, s1, he, hle⟩ := hB
        exact le_trans hle (hacc p1 s1 he)

theorem fbpStep_ne_none {sqrt : ℚ → ℚ} {graphBase base : Base} {item : Item}
    (acc : Option (Position × ℚ)) (pos : Position)
    (h : ¬ acc = none ∨ base.CanPlaceItem (mkTestItem item pos) = true) :
    ¬ fbpStep sqrt graphBase base item acc pos = none := by
  cases hc : base.CanPlaceItem (mkTestItem item pos) with
  | false =>
      rw [fbpStep_skip hc]
      rcases h with h | h
      · exact h
      · rw [hc] at h
        cases h
  | true =>
      cases acc with
      | none =>
          rw [fbpStep_none hc]
          simp
      | some bp =>
          obtain ⟨p0, s0⟩ := bp
          by_cases hlt : fbpScore sqrt graphBase base item pos > s0
          · rw [fbpStep_some_improve hc hlt]
            simp
          · rw [fbpStep_some_keep hc hlt]
            simp

theorem fbp_fold_ne_none_acc (sqrt : ℚ → ℚ) (graphBase base : Base)
    (item : Item) :
    ∀ (l : List Position) (acc : Option (Position × ℚ)), ¬ acc = none →
      ¬ l.foldl (fbpStep sqrt graphBase base item) acc = none := by
  intro l
  induction l with
  | nil =>
      intro acc hacc
      exact hacc
  | cons a rest ih =>
      intro acc hacc
      exact ih (fbpStep sqrt graphBase base item acc a)
        (fbpStep_ne_none acc a (Or.inl hacc))

theorem fbp_fold_ne_none (sqrt : ℚ → ℚ) (graphBase base : Base)
    (item : Item) :
    ∀ (l : List Position) (acc : Option (Position × ℚ)),
      (∃ q ∈ l, base.CanPlaceItem (mkTestItem item q) = true) →
      ¬ l.foldl (fbpStep sqrt graphBase base item) acc = none := by
  intro l
  induction l with
  | nil =>
      intro acc hex
      obtain ⟨q, hq, -⟩ := hex
      exact absurd hq (List.not_mem_nil q)
  | cons a rest ih =>
      intro acc hex
      obtain ⟨q, hq, hcq⟩ := hex
      rcases List.mem_cons.mp hq with rfl | hq2
      · exact fbp_fold_ne_none_acc sqrt graphBase base item rest _
          (fbpStep_ne_none acc q (Or.inr hcq))
      · exact ih (fbpStep sqrt graphBase base item acc a) ⟨q, hq2, hcq⟩

/-- `findBestPosition` returns a free, placeable position of maximal
desirability whenever some free position fits. -/
theorem findBestPosition_spec (sqrt : ℚ → ℚ) (graphBase base : Base)
    (item : Item)
    (hex : ∃ p ∈ base.GetFreePositions,
      base.CanPlaceItem (mkTestItem item p) = true) :
    ∃ pos, findBestPosition sqrt graphBase base item = some pos ∧
      pos ∈ base.GetFreePositions ∧
      base.CanPlaceItem (mkTestItem item pos) = true ∧
      ∀ q ∈ base.GetFreePositions,
        base.CanPlaceItem (mkTestItem item q) = true →
          fbpScore sqrt graphBase base item q ≤
            fbpScore sqrt graphBase base item pos := by
  have hne := fbp_fold_ne_none sqrt graphBase base item
    base.GetFreePositions none hex
  cases hres : base.GetFreePositions.foldl
      (fbpStep sqrt graphBase base item) none with
  | none => exact absurd hres hne
  | some bp =>
      obtain ⟨p, s⟩ := bp
      rcases fbp_fold_form sqrt graphBase base item base.GetFreePositions
          none with h | ⟨p2, hp2, hcp2, heq⟩
      · rw [hres] at h
        cases h
      · rw [hres] at heq
        injection heq with h3
        have hp : p = p2 := congrArg Prod.fst h3
        have hs : s = fbpScore sqrt graphBase base item p2 :=
          congrArg Prod.snd h3
        obtain ⟨hl, -⟩ := fbp_fold_bounds sqrt graphBase base item
          base.GetFreePositions none p s hres
        refine ⟨p, ?_, ?_, ?_, ?_⟩
        · unfold findBestPosition
          rw [hres]
          rfl
        · rw [hp]
          exact hp2
        · rw [hp]
          exact hcp2
        · intro q hq hcq
          have h4 := hl q hq hcq
          rw [hp, ← hs]
          exact h4

/-- **C3.**  A greedy-seeding step for the slice index `i`: whenever the
item fits at at least one free position, `findBestPosition` succeeds, the
step places the item exactly there, and the chosen position maximizes the
placement desirability (`evaluateItemPosition`) over every free position at
which the item's footprint fits without collision. -/
theorem greedyStep_places_argmax (sqrt : ℚ → ℚ) (arr : List Item)
    (ob : OBase) (i : ℕ)
    (hex : ∃ p ∈ (ob.resolve arr).GetFreePositions,
      (ob.resolve arr).CanPlaceItem
        (mkTestItem (arr.getD i defaultItem) p) = true) :
    ∃ pos,
      findBestPosition sqrt (ob.resolve arr) (ob.resolve arr)
        (arr.getD i defaultItem) = some pos ∧
      greedyStep sqrt (arr, ob) i =
        (arr.set i (mkTestItem (arr.getD i defaultItem) pos),
         (ob.PlaceItemShared arr i
           (mkTestItem (arr.getD i defaultItem) pos)).1) ∧
      pos ∈ (ob.resolve arr).GetFreePositions ∧
      (ob.resolve arr).CanPlaceItem
        (mkTestItem (arr.getD i defaultItem) pos) = true ∧
      ∀ q ∈ (ob.resolve arr).GetFreePositions,
        (ob.resolve arr).CanPlaceItem
          (mkTestItem (arr.getD i defaultItem) q) = true →
          evaluateItemPosition sqrt (ob.resolve arr) (ob.resolve arr)
              (mkTestItem (arr.getD i defaultItem) q) ≤
            evaluateItemPosition sqrt (ob.resolve arr) (ob.resolve arr)
              (mkTestItem (arr.getD i defaultItem) pos) := by
  obtain ⟨pos, hfind, hmem, hcan, hmax⟩ := findBestPosition_spec sqrt
    (ob.resolve arr) (ob.resolve arr) (arr.getD i defaultItem) hex
  refine ⟨pos, hfind, ?_, hmem, hcan, hmax⟩
  unfold greedyStep
  show (match findBestPosition sqrt (ob.resolve arr) (ob.resolve arr)
      (arr.getD i defaultItem) with
    | some pos2 =>
        (arr.set i (mkTestItem (arr.getD i defaultItem) pos2),
         (ob.PlaceItemShared arr i
           (mkTestItem (arr.getD i defaultItem) pos2)).1)
    | none => ((arr, ob) : List Item × OBase)) = _
  rw [hfind]

/-- The concrete item of the C3 witness: a bed with an empty footprint. -/
def c3Item : Item :=
  ⟨"bed", ItemTypePalBed, ⟨0, 0, 0⟩, ⟨0, 0, 0⟩, 0, 1⟩

/-- Witness for C3: on an empty 1×1×1 base the bed fits at the origin and
the greedy step places it at a maximizing free position. -/
theorem greedyStep_places_argmax_witness :
    (∃ p ∈ ((OBase.ofBase (NewBase 1 1 1)).resolve
        [c3Item]).GetFreePositions,
      ((OBase.ofBase (NewBase 1 1 1)).resolve [c3Item]).CanPlaceItem
        (mkTestItem ([c3Item].getD 0 defaultItem) p) = true) ∧
    (∃ pos,
      findBestPosition (fun q => q)
        ((OBase.ofBase (NewBase 1 1 1)).resolve [c3Item])
        ((OBase.ofBase (NewBase 1 1 1)).resolve [c3Item])
        ([c3Item].getD 0 defaultItem) = some pos ∧
      greedyStep (fun q => q) ([c3Item], OBase.ofBase (NewBase 1 1 1)) 0 =
        ([c3Item].set 0 (mkTestItem ([c3Item].getD 0 defaultItem) pos),
         ((OBase.ofBase (NewBase 1 1 1)).PlaceItemShared [c3Item] 0
           (mkTestItem ([c3Item].getD 0 defaultItem) pos)).1) ∧
      pos ∈ ((OBase.ofBase (NewBase 1 1 1)).resolve
        [c3Item]).GetFreePositions ∧
      ((OBase.ofBase (NewBase 1 1 1)).resolve [c3Item]).CanPlaceItem
        (mkTestItem ([c3Item].getD 0 defaultItem) pos) = true ∧
      ∀ q ∈ ((OBase.ofBase (NewBase 1 1 1)).resolve
          [c3Item]).GetFreePositions,
        ((OBase.ofBase (NewBase 1 1 1)).resolve [c3Item]).CanPlaceItem
          (mkTestItem ([c3Item].getD 0 defaultItem) q) = true →
          evaluateItemPosition (fun q2 => q2)
              ((OBase.ofBase (NewBase 1 1 1)).resolve [c3Item])
              ((OBase.ofBase (NewBase 1 1 1)).resolve [c3Item])
              (mkTestItem ([c3Item].getD 0 defaultItem) q) ≤
            evaluateItemPosition (fun q2 => q2)
              ((OBase.ofBase (NewBase 1 1 1)).resolve [c3Item])
              ((OBase.ofBase (NewBase 1 1 1)).resolve [c3Item])
              (mkTestItem ([c3Item].getD 0 defaultItem) pos)) :=
  ⟨by decide,
    greedyStep_places_argmax (fun q => q) [c3Item]
      (OBase.ofBase (NewBase 1 1 1)) 0 (by decide)⟩

/-! ## C2: map-iteration order leaks into the returned score

Go map iteration order is randomized and `evaluatePathfinding` takes the
*first* Palbox encountered while ranging over `base.Items` as the hub.  Two
runs over the same starting Base (same key set, same bindings, same grid)
can therefore disagree, with identical seed, items and config.  The two
bases below differ only in the list order that models the map's iteration
order: they are permutations of each other with duplicate-free keys.  With
two Palboxes, the hub differs between the orders and the returned scores
differ (`400/3` against `200/3` after pathfinding weighting). -/

def c2ItemA : Item := ⟨"A", ItemTypePalbox, ⟨0, 0, 0⟩, ⟨0, 0, 0⟩, 0, 0⟩

def c2ItemB : Item := ⟨"B", ItemTypePalbox, ⟨1, 0, 0⟩, ⟨0, 0, 0⟩, 0, 0⟩

def c2ItemC : Item := ⟨"C", ItemTypeWorkbench, ⟨0, 0, 0⟩, ⟨0, 0, 0⟩, 0, 0⟩

def c2Base1 : Base :=
  ⟨2, 1, 1, [("A", c2ItemA), ("B", c2ItemB), ("C", c2ItemC)],
    fun _ => false⟩

def c2Base2 : Base :=
  ⟨2, 1, 1, [("B", c2ItemB), ("A", c2ItemA), ("C", c2ItemC)],
    fun _ => false⟩

def c2Config : OptimizationConfig :=
  ⟨0, 100, 95 / 100, 1 / 10, 42, 1, 0, 0⟩

def c2Sqrt : ℚ → ℚ := fun q => if q = 1 then 1 else 0

set_option maxRecDepth 100000 in
set_option maxHeartbeats 2000000 in
theorem c2_scores_differ :
    ¬ (OptimizePlacement c2Sqrt (fun _ => 1) (fun _ => 0) (fun _ => 0)
        c2Base1 [] c2Config).2.TotalScore =
      (OptimizePlacement c2Sqrt (fun _ => 1) (fun _ => 0) (fun _ => 0)
        c2Base2 [] c2Config).2.TotalScore :=
  of_decide_eq_true (by with_unfolding_all rfl)

/-- **C2.**  (Refuted.)  The two starting bases are equal as Bases in every
map-independent sense — same dimensions, identical grids, `Items` lists
that are key-duplicate-free permutations of one another — and the seed
(streams), items and config agree; yet the two `OptimizePlacement` runs
return different total scores, because the pathfinding hub is whichever
Palbox the map iteration happens to visit first. -/
theorem OptimizePlacement_not_deterministic :
    c2Base1.Width = c2Base2.Width ∧
    c2Base1.Height = c2Base2.Height ∧
    c2Base1.Depth = c2Base2.Depth ∧
    (∀ p, c2Base1.Grid p = c2Base2.Grid p) ∧
    c2Base1.Items.Perm c2Base2.Items ∧
    (c2Base1.Items.map Prod.fst).Nodup ∧
    ¬ (OptimizePlacement c2Sqrt (fun _ => 1) (fun _ => 0) (fun _ => 0)
        c2Base1 [] c2Config).2.TotalScore =
      (OptimizePlacement c2Sqrt (fun _ => 1) (fun _ => 0) (fun _ => 0)
        c2Base2 [] c2Config).2.TotalScore :=
  ⟨rfl, rfl, rfl, fun _ => rfl,
    List.Perm.swap ("B", c2ItemB) ("A", c2ItemA) [("C", c2ItemC)],
    by decide, c2_scores_differ⟩

/-! ## C1: the acceptance test runs against the best score, not the current

The loop calls `shouldAccept(bestScore.TotalScore, candidateScore.TotalScore,
temperature)`: the claimed Metropolis rule against the *current* layout's
score is refuted on a concrete run in which the current layout (accepted
earlier with a score below the best) scores 176, the next candidate scores
544/3 ≈ 181.3 — strictly above the current, so the claimed rule must adopt
it — while the loop, comparing against the best 208, rejects it.

The run: a 1×1×5 corridor of zero-footprint items, pre-placed workbench,
power generator (both at z=4) and storage (z=2), movable storage, workbench
and two furnaces.  Greedy stacks the movable storage and workbench at z=4
(score 208).  Iteration 1 perturbs the storage: having equally many
workbench- and furnace-anchors (10 points each locally), it ties between
z=0 and z=4 and the first-scan tie-break moves it to z=0, which globally
loses the 40-weight mutual workbench pairs for 20-weight one-way furnace
pairs (score 176); the draw 0 accepts it.  Iteration 2 perturbs the movable
workbench, which relocates to the pre-placed storage at z=2 (score 544/3):
better than the current 176, worse than the best 208; the draw 1/2 is not
below exp(negative) and the loop rejects it. -/

def c1Sqrt : ℚ → ℚ := fun q =>
  if q = 0 then 0 else if q = 1 then 1 else if q = 4 then 2
  else if q = 9 then 3 else if q = 16 then 4 else 0

def c1Exp : ℚ → ℚ := fun q => if q < 0 then 1 / 2 else 1

def c1Int : ℕ → ℕ := fun n => if n = 0 then 0 else 1

def c1Float : ℕ → ℚ := fun n => if n = 0 then 0 else 1 / 2

def c1Storage : Item := ⟨"S1", ItemTypeStorage, ⟨0, 0, 0⟩, ⟨0, 0, 0⟩, 0, 4⟩

def c1Bench : Item := ⟨"W2", ItemTypeWorkbench, ⟨0, 0, 0⟩, ⟨0, 0, 0⟩, 0, 3⟩

def c1Furn1 : Item := ⟨"F1", ItemTypeFurnace, ⟨0, 0, 0⟩, ⟨0, 0, 0⟩, 0, 2⟩

def c1Furn2 : Item := ⟨"F2", ItemTypeFurnace, ⟨0, 0, 0⟩, ⟨0, 0, 0⟩, 0, 1⟩

def c1Bench0 : Item :=
  ⟨"wb1", ItemTypeWorkbench, ⟨0, 0, 4⟩, ⟨0, 0, 0⟩, 0, 0⟩

def c1Gen0 : Item :=
  ⟨"pg1", ItemTypePowerGenerator, ⟨0, 0, 4⟩, ⟨0, 0, 0⟩, 0, 0⟩

def c1Store0 : Item := ⟨"S2", ItemTypeStorage, ⟨0, 0, 2⟩, ⟨0, 0, 0⟩, 0, 0⟩

def c1Base0 : Base :=
  ⟨1, 1, 5, [("wb1", c1Bench0), ("pg1", c1Gen0), ("S2", c1Store0)],
    fun _ => false⟩

def c1Items : List Item := [c1Storage, c1Bench, c1Furn1, c1Furn2]

def c1Config : OptimizationConfig := ⟨2, 100, 1, 1 / 10, 7, 0, 1, 0⟩

/-- The post-greedy slice and base of the C1 run, as built by
`OptimizePlacement`. -/
def c1Greedy : List Item × OBase :=
  placeItemsGreedy c1Sqrt (sortByPriority c1Items)
    (OBase.ofBase c1Base0.Clone)

def c1GraphBase : Base := c1Greedy.2.resolve c1Greedy.1

/-- The loop state entering iteration 1 of the C1 run. -/
def c1St0 : LoopSt :=
  ⟨c1Greedy.1, c1Greedy.2, c1GraphBase,
   evaluatePlacement c1Sqrt c1GraphBase c1Config c1GraphBase,
   c1Config.Temperature, 0, 0⟩

/-- The loop state entering iteration 2 of the C1 run. -/
def c1St1 : LoopSt :=
  annealStep c1Sqrt c1Exp c1Int c1Float c1GraphBase c1Config c1St0

/-- The loop state after iteration 2 of the C1 run. -/
def c1St2 : LoopSt :=
  annealStep c1Sqrt c1Exp c1Int c1Float c1GraphBase c1Config c1St1

/-- The candidate layout perturbation produces in iteration 2, resolved. -/
def c1Cand2 : Base :=
  (iterCandidate c1Sqrt c1Int c1GraphBase c1St1).2.resolve
    (iterCandidate c1Sqrt c1Int c1GraphBase c1St1).1

set_option maxRecDepth 400000 in
set_option maxHeartbeats 4000000 in
/-- **C1** (counterexample).  In iteration 2 of the concrete run the
perturbed candidate scores strictly above the current layout, so under the
claimed rule (compare with the current layout's score, always accept when
at least equal) it must become the layout the next iteration perturbs; but
the iteration leaves the current layout unchanged — its score after the
step still equals the old current score and differs from the candidate's —
because the code compares the candidate against the best score instead. -/
theorem anneal_compares_to_best_counterexample :
    (evaluatePlacement c1Sqrt c1GraphBase c1Config c1Cand2).TotalScore >
      (evaluatePlacement c1Sqrt c1GraphBase c1Config
        (c1St1.ob.resolve c1St1.arr)).TotalScore ∧
    (evaluatePlacement c1Sqrt c1GraphBase c1Config
        (c1St2.ob.resolve c1St2.arr)).TotalScore =
      (evaluatePlacement c1Sqrt c1GraphBase c1Config
        (c1St1.ob.resolve c1St1.arr)).TotalScore ∧
    ¬ (evaluatePlacement c1Sqrt c1GraphBase c1Config
        (c1St1.ob.resolve c1St1.arr)).TotalScore =
      (evaluatePlacement c1Sqrt c1GraphBase c1Config c1Cand2).TotalScore :=
  of_decide_eq_true (by with_unfolding_all rfl)

theorem shouldAccept_of_gt (exp : ℚ → ℚ) (cur cand t u : ℚ)
    (h : cand > cur) : shouldAccept exp cur cand t u = true := by
  unfold shouldAccept
  rw [if_pos h]

theorem shouldAccept_of_ge (exp : ℚ → ℚ) (cur cand t u : ℚ)
    (hexp0 : exp 0 = 1) (hu1 : u < 1) (hge : cand ≥ cur) :
    shouldAccept exp cur cand t u = true := by
  by_cases h : cand > cur
  · exact shouldAccept_of_gt exp cur cand t u h
  · unfold shouldAccept
    rw [if_neg h]
    have he : cand = cur := le_antisymm (not_lt.mp h) hge
    rw [he, sub_self, zero_div, hexp0]
    exact decide_eq_true hu1

theorem shouldAccept_iff (exp : ℚ → ℚ) (cur cand t u : ℚ) :
    shouldAccept exp cur cand t u = true ↔
      (cand > cur ∨ u < exp ((cand - cur) / t)) := by
  unfold shouldAccept
  by_cases h : cand > cur
  · rw [if_pos h]
    simp [h]
  · rw [if_neg h]
    simp [h]

/-- **C1** (amended).  Each annealing iteration perturbs a clone of the
current layout and compares the candidate's total score against the BEST
score so far: it is accepted exactly when it strictly exceeds the best or
the next `rand.Float64` draw is below `exp((candidate − best)/temperature)`
(in particular a candidate at least matching the best is always accepted,
equality passing through the probability branch because `exp 0 = 1`
exceeds every draw); an accepted candidate becomes the layout the next
iteration perturbs, a rejected one leaves it unchanged; and the best
score is replaced exactly on strict improvement. -/
theorem annealStep_acceptance_rule (sqrt exp : ℚ → ℚ) (intStream : ℕ → ℕ)
    (floatStream : ℕ → ℚ) (graphBase : Base) (config : OptimizationConfig)
    (s : LoopSt) (hexp0 : exp 0 = 1) (hu1 : floatStream s.fc < 1) :
    (annealStep sqrt exp intStream floatStream graphBase config s).arr =
      (iterCandidate sqrt intStream graphBase s).1 ∧
    (annealStep sqrt exp intStream floatStream graphBase config s).ob =
      (if shouldAccept exp s.bestScore.TotalScore
          (evaluatePlacement sqrt graphBase config
            ((iterCandidate sqrt intStream graphBase s).2.resolve
              (iterCandidate sqrt intStream graphBase s).1)).TotalScore
          s.temp (floatStream s.fc) = true
        then (iterCandidate sqrt intStream graphBase s).2 else s.ob) ∧
    (annealStep sqrt exp intStream floatStream graphBase config
        s).bestScore =
      (if (evaluatePlacement sqrt graphBase config
            ((iterCandidate sqrt intStream graphBase s).2.resolve
              (iterCandidate sqrt intStream graphBase s).1)).TotalScore >
          s.bestScore.TotalScore
        then evaluatePlacement sqrt graphBase config
          ((iterCandidate sqrt intStream graphBase s).2.resolve
            (iterCandidate sqrt intStream graphBase s).1)
        else s.bestScore) ∧
    (shouldAccept exp s.bestScore.TotalScore
        (evaluatePlacement sqrt graphBase config
          ((iterCandidate sqrt intStream graphBase s).2.resolve
            (iterCandidate sqrt intStream graphBase s).1)).TotalScore
        s.temp (floatStream s.fc) = true ↔
      ((evaluatePlacement sqrt graphBase config
          ((iterCandidate sqrt intStream graphBase s).2.resolve
            (iterCandidate sqrt intStream graphBase s).1)).TotalScore >
          s.bestScore.TotalScore ∨
        floatStream s.fc < exp (((evaluatePlacement sqrt graphBase config
          ((iterCandidate sqrt intStream graphBase s).2.resolve
            (iterCandidate sqrt intStream graphBase s).1)).TotalScore -
          s.bestScore.TotalScore) / s.temp))) ∧
    ((evaluatePlacement sqrt graphBase config
        ((iterCandidate sqrt intStream graphBase s).2.resolve
          (iterCandidate sqrt intStream graphBase s).1)).TotalScore ≥
        s.bestScore.TotalScore →
      (annealStep sqrt exp intStream floatStream graphBase config s).ob =
        (iterCandidate sqrt intStream graphBase s).2) := by
  refine ⟨rfl, ?_, ?_, shouldAccept_iff exp s.bestScore.TotalScore _
    s.temp (floatStream s.fc), ?_⟩
  · dsimp only [annealStep]
    split_ifs <;> rfl
  · dsimp only [annealStep]
    split_ifs with h1 h2 h3 <;>
      first
        | rfl
        | exact absurd (shouldAccept_of_gt exp s.bestScore.TotalScore _
            s.temp (floatStream s.fc) ‹_›) h1
  · intro hge
    have hacc := shouldAccept_of_ge exp s.bestScore.TotalScore _
      s.temp (floatStream s.fc) hexp0 hu1 hge
    dsimp only [annealStep]
    rw [if_pos hacc]

/-- A minimal loop state for the C1 witness. -/
def c1TrivState : LoopSt :=
  ⟨[], OBase.ofBase (NewBase 1 1 1), NewBase 1 1 1, ⟨0, 0, 0, 0⟩, 100, 0, 0⟩

/-- Witness for the amended C1 theorem at a concrete state. -/
theorem annealStep_acceptance_rule_witness :
    ((fun _ : ℚ => (1 : ℚ)) 0 = 1) ∧
    ((fun _ : ℕ => (0 : ℚ)) c1TrivState.fc < 1) ∧
    ((annealStep (fun _ => 0) (fun _ => 1) (fun _ => 0) (fun _ => 0)
        (NewBase 1 1 1) c1Config c1TrivState).arr =
      (iterCandidate (fun _ => 0) (fun _ => 0) (NewBase 1 1 1)
        c1TrivState).1 ∧
    (annealStep (fun _ => 0) (fun _ => 1) (fun _ => 0) (fun _ => 0)
        (NewBase 1 1 1) c1Config c1TrivState).ob =
      (if shouldAccept (fun _ => 1) c1TrivState.bestScore.TotalScore
          (evaluatePlacement (fun _ => 0) (NewBase 1 1 1) c1Config
            ((iterCandidate (fun _ => 0) (fun _ => 0) (NewBase 1 1 1)
                c1TrivState).2.resolve
              (iterCandidate (fun _ => 0) (fun _ => 0) (NewBase 1 1 1)
                c1TrivState).1)).TotalScore
          c1TrivState.temp ((fun _ : ℕ => (0 : ℚ)) c1TrivState.fc) = true
        then (iterCandidate (fun _ => 0) (fun _ => 0) (NewBase 1 1 1)
          c1TrivState).2
        else c1TrivState.ob) ∧
    (annealStep (fun _ => 0) (fun _ => 1) (fun _ => 0) (fun _ => 0)
        (NewBase 1 1 1) c1Config c1TrivState).bestScore =
      (if (evaluatePlacement (fun _ => 0) (NewBase 1 1 1) c1Config
            ((iterCandidate (fun _ => 0) (fun _ => 0) (NewBase 1 1 1)
                c1TrivState).2.resolve
              (iterCandidate (fun _ => 0) (fun _ => 0) (NewBase 1 1 1)
                c1TrivState).1)).TotalScore >
          c1TrivState.bestScore.TotalScore
        then evaluatePlacement (fun _ => 0) (NewBase 1 1 1) c1Config
          ((iterCandidate (fun _ => 0) (fun _ => 0) (NewBase 1 1 1)
              c1TrivState).2.resolve
            (iterCandidate (fun _ => 0) (fun _ => 0) (NewBase 1 1 1)
              c1TrivState).1)
        else c1TrivState.bestScore) ∧
    (shouldAccept (fun _ => 1) c1TrivState.bestScore.TotalScore
        (evaluatePlacement (fun _ => 0) (NewBase 1 1 1) c1Config
          ((iterCandidate (fun _ => 0) (fun _ => 0) (NewBase 1 1 1)
              c1TrivState).2.resolve
            (iterCandidate (fun _ => 0) (fun _ => 0) (NewBase 1 1 1)
              c1TrivState).1)).TotalScore
        c1TrivState.temp ((fun _ : ℕ => (0 : ℚ)) c1TrivState.fc) = true ↔
      ((evaluatePlacement (fun _ => 0) (NewBase 1 1 1) c1Config
          ((iterCandidate (fun _ => 0) (fun _ => 0) (NewBase 1 1 1)
              c1TrivState).2.resolve
            (iterCandidate (fun _ => 0) (fun _ => 0) (NewBase 1 1 1)
              c1TrivState).1)).TotalScore >
          c1TrivState.bestScore.TotalScore ∨
        (fun _ : ℕ => (0 : ℚ)) c1TrivState.fc <
          (fun _ : ℚ => (1 : ℚ))
            (((evaluatePlacement (fun _ => 0) (NewBase 1 1 1) c1Config
              ((iterCandidate (fun _ => 0) (fun _ => 0) (NewBase 1 1 1)
                  c1TrivState).2.resolve
                (iterCandidate (fun _ => 0) (fun _ => 0) (NewBase 1 1 1)
                  c1TrivState).1)).TotalScore -
              c1TrivState.bestScore.TotalScore) / c1TrivState.temp))) ∧
    ((evaluatePlacement (fun _ => 0) (NewBase 1 1 1) c1Config
        ((iterCandidate (fun _ => 0) (fun _ => 0) (NewBase 1 1 1)
            c1TrivState).2.resolve
          (iterCandidate (fun _ => 0) (fun _ => 0) (NewBase 1 1 1)
            c1TrivState).1)).TotalScore ≥
        c1TrivState.bestScore.TotalScore →
      (annealStep (fun _ => 0) (fun _ => 1) (fun _ => 0) (fun _ => 0)
          (NewBase 1 1 1) c1Config c1TrivState).ob =
        (iterCandidate (fun _ => 0) (fun _ => 0) (NewBase 1 1 1)
          c1TrivState).2)) :=
  ⟨rfl, by norm_num,
    annealStep_acceptance_rule (fun _ => 0) (fun _ => 1) (fun _ => 0)
      (fun _ => 0) (NewBase 1 1 1) c1Config c1TrivState rfl (by norm_num)⟩

end PalBaseIQ
